import Mathlib

/-!
Verification development for the Railways conflict-detection-and-rerouting
engine.  The repository contains three server variants of the engine:

* `extreme_ai_sync.py`  — modelled in namespace `ESync`
* `distance_ai_server.py` — modelled in namespace `DistAI`
* `extreme_ai_server.py` — modelled in namespace `EServer`

Modelling conventions (shallow embedding):

* Python `float` values are modelled as exact rationals (`ℚ`).  The
  transcendental great-circle metric `haversine` (and the derived
  `edge_length_m` / environment-weighted edge costs) cannot be expressed in
  exact arithmetic, so every function that consumes it takes the metric as an
  explicit parameter (`elen`, `w`, `hav`, …).  All properties proved here are
  independent of the metric, and concrete instantiations use values that the
  real metric can produce (0 for identical coordinates, positive values
  otherwise).
* Python `dict`s are modelled as association lists looked up by first match;
  Python `set`s as lists with membership-based insertion.
* The `heapq` priority queue is modelled as a list from which `popMin`
  extracts the minimal element under the lexicographic tuple order that
  Python uses for `(cost, node, path)` tuples (leftmost minimal element on
  ties).
* Code that can raise (`KeyError`, `IndexError`) is modelled with
  `Except String`; code that catches every exception and falls back is
  modelled by the fallback value directly.
* Loops whose termination is not structural are given an explicit `fuel`
  argument; running out of fuel is distinguished from a genuine result.
-/

set_option maxRecDepth 8000

namespace Rail

/-- Agent record shared by the servers.  Fields follow the pydantic
`TrainModel` of `extreme_ai_sync.py` (the `name`/`status`/`train_type`
fields carry no logic and are omitted). -/
structure Train where
  id : String
  lat : ℚ
  lon : ℚ
  source : String
  destination : String
  path : List String
  progress : ℚ
  speed : ℚ
  priority : Int
deriving DecidableEq, Repr

/-- Priority-queue entry: the `(cost, node, path)` tuples pushed by all
three `dijkstra` variants (`distance_ai_server` pushes the path without the
final node; the `path` field stores whatever the variant pushes). -/
structure Entry where
  cost : ℚ
  node : String
  path : List String
deriving DecidableEq, Repr

/-- Lexicographic order on `List String`, as Python compares lists. -/
def listLe : List String → List String → Bool
  | [], _ => true
  | _ :: _, [] => false
  | a :: as, b :: bs => if a < b then true else if b < a then false else listLe as bs

/-- The order in which `heapq` compares `(cost, node, path)` tuples. -/
def entryLe (a b : Entry) : Bool :=
  if a.cost < b.cost then true
  else if b.cost < a.cost then false
  else if a.node < b.node then true
  else if b.node < a.node then false
  else listLe a.path b.path

/-- Extract the minimal entry (leftmost on ties) and the rest of the queue;
models `heapq.heappop` of the min-heap. -/
def popMin : List Entry → Option (Entry × List Entry)
  | [] => none
  | e :: es =>
    match popMin es with
    | none => some (e, [])
    | some (m, rest) => if entryLe e m then some (e, es) else some (m, e :: rest)

/-- All unordered pairs `(trains[i], trains[j])`, `i < j`, in the iteration
order of the nested loops `for i in range(n): for j in range(i+1, n):`. -/
def pairsOf : List Train → List (Train × Train)
  | [] => []
  | a :: rest => rest.map (fun b => (a, b)) ++ pairsOf rest

/-- First-match lookup of a station's `(lat, lon)` in the graph snapshot
(a Python dict `name -> {lat, lon}`). -/
def lookupStation : List (String × ℚ × ℚ) → String → Option (ℚ × ℚ)
  | [], _ => none
  | (k, c) :: rest, n => if k = n then some c else lookupStation rest n

/-- Python `int()` truncation toward zero on a rational. -/
def pyInt (q : ℚ) : ℤ := if 0 ≤ q then ⌊q⌋ else ⌈q⌉

/-- Python list indexing `l[i]`, including negative indices; raises
`IndexError` out of range. -/
def pyGet (l : List String) (i : ℤ) : Except String String :=
  if 0 ≤ i ∧ i.toNat < l.length then .ok (l.getD i.toNat "")
  else if i < 0 ∧ 0 ≤ i + l.length then .ok (l.getD (i + l.length).toNat "")
  else .error "IndexError"

end Rail

namespace ESync

/-- Model of `safe_station_coord` (`extreme_ai_sync.py:102`): the station's
`(lat, lon)` or the fallback when the name is missing.  The runtime type
checks of the Python function cannot fail in the typed model. -/
def safe_station_coord (stations : List (String × ℚ × ℚ)) (name : String)
    (fallback : ℚ × ℚ) : ℚ × ℚ :=
  match Rail.lookupStation stations name with
  | some c => c
  | none => fallback

/-- Adjacency structure of `dijkstra` (`extreme_ai_sync.py:121`): a dict
from node to its neighbour/weight list, as an association list. -/
abbrev Adj := List (String × List (String × ℚ))

/-- Lookup `adj.get(node, [])`. -/
def adjGet : Adj → String → List (String × ℚ)
  | [], _ => []
  | (k, l) :: rest, s => if k = s then l else adjGet rest s

/-- Membership test `node in adj`. -/
def adjHasKey : Adj → String → Bool
  | [], _ => false
  | (k, _) :: rest, s => k = s || adjHasKey rest s

/-- Ensure-key step `if k not in adj: adj[k] = []`. -/
def adjEnsure (a : Adj) (k : String) : Adj :=
  if adjHasKey a k then a else a ++ [(k, [])]

/-- Append step `adj[k].append(x)` (key created when absent; in `dijkstra` all keys are
ensured present before edges are inserted). -/
def adjAppend : Adj → String → String × ℚ → Adj
  | [], k, x => [(k, [x])]
  | (k', l) :: rest, k, x =>
    if k' = k then (k', l ++ [x]) :: rest else (k', l) :: adjAppend rest k x

/-- Lines 123–130: every station key and every edge endpoint becomes an
adjacency key with an empty neighbour list. -/
def initAdj (stationKeys : List String) (edges : List (String × String)) : Adj :=
  let a0 := stationKeys.foldl (fun a s => adjEnsure a s) []
  edges.foldl (fun a uv => adjEnsure (adjEnsure a uv.1) uv.2) a0

/-- Lines 131–136: insert each edge in both directions unless it is blocked
in either orientation; `elen` stands for `edge_length_m stations u v`. -/
def addEdges (elen : String → String → ℚ) (blocked : List (String × String))
    (a : Adj) (edges : List (String × String)) : Adj :=
  edges.foldl
    (fun a uv =>
      if (uv.1, uv.2) ∈ blocked ∨ (uv.2, uv.1) ∈ blocked then a
      else
        let d := elen uv.1 uv.2
        adjAppend (adjAppend a uv.1 (uv.2, d)) uv.2 (uv.1, d))
    a

/-- Lookup in the `seen` dict. -/
def seenGet : List (String × ℚ) → String → Option ℚ
  | [], _ => none
  | (k, v) :: rest, s => if k = s then some v else seenGet rest s

/-- Assignment `seen[k] = v`. -/
def seenSet : List (String × ℚ) → String → ℚ → List (String × ℚ)
  | [], k, v => [(k, v)]
  | (k', v') :: rest, k, v =>
    if k' = k then (k', v) :: rest else (k', v') :: seenSet rest k v

/-- Test `node in seen and seen[node] <= d`. -/
def seenLe (seen : List (String × ℚ)) (k : String) (d : ℚ) : Bool :=
  match seenGet seen k with
  | some sd => if sd ≤ d then true else false
  | none => false

/-- Lines 148–151: push `(d + w, nxt, path + [nxt])` for every neighbour not
already settled at a smaller-or-equal cost. -/
def pushNeighbors (seen : List (String × ℚ)) (e : Rail.Entry)
    (nbrs : List (String × ℚ)) (acc : List Rail.Entry) : List Rail.Entry :=
  nbrs.foldl
    (fun acc nw =>
      let nd := e.cost + nw.2
      if seenLe seen nw.1 nd then acc
      else acc ++ [⟨nd, nw.1, e.path ++ [nw.1]⟩])
    acc

/-- The `while pq:` loop of `extreme_ai_sync.dijkstra` (lines 141–152),
with explicit fuel; exhausted fuel yields `none`. -/
def loop (adj : Adj) (goal : String) :
    List Rail.Entry → List (String × ℚ) → ℕ → Option (List String)
  | _, _, 0 => none
  | pq, seen, fuel + 1 =>
    match Rail.popMin pq with
    | none => none
    | some (e, rest) =>
      if e.node = goal then some e.path
      else if seenLe seen e.node e.cost then loop adj goal rest seen fuel
      else
        let seen' := seenSet seen e.node e.cost
        loop adj goal (pushNeighbors seen' e (adjGet adj e.node) rest) seen' fuel

/-- Model of `dijkstra` of `extreme_ai_sync.py:117`.  `stationKeys` are the keys of
the stations dict (coordinates enter only through `elen`). -/
def dijkstra (stationKeys : List String) (edges : List (String × String))
    (start goal : String) (blocked : List (String × String))
    (elen : String → String → ℚ) (fuel : ℕ) : Option (List String) :=
  let adj := addEdges elen blocked (initAdj stationKeys edges) edges
  if adjHasKey adj start && adjHasKey adj goal then
    loop adj goal [⟨0, start, [start]⟩] [] fuel
  else none

/-- The `while remaining > 0 and edge_idx < segments:` walk of
`predict_future_pos` (lines 181–197), structurally recursive over the list
of consecutive path pairs from the current segment.  `fb` is the agent's
last reported `(lat, lon)` and `lastName` the final path station; the walk
falls through to `station_coord(len(path)-1)` when either the distance or
the pairs are exhausted.  The sub-expression `(va.1 - va.1) * r` is the
faithful transcription of line 190's `(va[0] - va[0]) * ratio` (and line
191's longitude counterpart), which the source computes instead of
`(va[0] - ua[0]) * ratio`. -/
def walk (elen : String → String → ℚ) (stations : List (String × ℚ × ℚ))
    (fb : ℚ × ℚ) (lastName : String) :
    List (String × String) → ℚ → ℚ → ℚ × ℚ
  | [], _, _ => safe_station_coord stations lastName fb
  | (u, v) :: rest, remaining, frac =>
    if 0 < remaining then
      let edge_len := elen u v
      let rem_on_edge := edge_len * (1 - frac)
      if remaining < rem_on_edge then
        let r := if 0 < edge_len then (frac * edge_len + remaining) / edge_len else 0
        let ua := safe_station_coord stations u fb
        let va := safe_station_coord stations v fb
        (ua.1 + (va.1 - va.1) * r, ua.2 + (va.2 - va.2) * r)
      else walk elen stations fb lastName rest (remaining - rem_on_edge) 0
    else safe_station_coord stations lastName fb

/-- Model of `predict_future_pos` (`extreme_ai_sync.py:154`).  `elen` stands for
`edge_length_m stations u v`.  Lines 173–177 compute an interpolated current
point that the rest of the function never reads; it is omitted.  The
enclosing `try/except` can only be reached by dynamic-typing failures that
the typed model excludes. -/
def predict_future_pos (elen : String → String → ℚ)
    (stations : List (String × ℚ × ℚ)) (train : Rail.Train)
    (seconds_ahead : ℚ) : ℚ × ℚ :=
  if train.path.length < 2 then (train.lat, train.lon)
  else
    let speed_ms := max train.speed (1/10) * 1000 / 3600
    let remaining := speed_ms * seconds_ahead
    let segments : ℕ := train.path.length - 1
    let scaled : ℚ := (min (max train.progress 0) 1) * (segments : ℚ)
    let idx : ℕ := min (⌊scaled⌋).toNat (segments - 1)
    let frac : ℚ := scaled - (idx : ℚ)
    walk elen stations (train.lat, train.lon) (train.path.getLast?.getD "")
      ((train.path.zip train.path.tail).drop idx) remaining frac

/-- Formula `base_score` of the pairwise risk evaluation (line 297):
`0.33*proximity_score + 0.33*ttc_score + 0.34*braking_score`
(float literals as exact rationals). -/
def base_score (p t b : ℚ) : ℚ := 33/100 * p + 33/100 * t + 34/100 * b

/-- Formula `paramRisk` (lines 299–300): the external feed contribution normalised
by the total declared weight (`1.0` when the weights dict is empty, `0.0`
when the total is not positive). -/
def paramRisk (contribs weights : List ℚ) : ℚ :=
  let total_w : ℚ := if weights.isEmpty then 1 else weights.sum
  if 0 < total_w then contribs.sum / total_w else 0

/-- Formula `final` (line 302): `max(0.0, min(1.0, 0.6*base_score + 0.4*paramRisk))`. -/
def final_score (b pr : ℚ) : ℚ := max 0 (min 1 (6/10 * b + 4/10 * pr))

/-- The running-maximum accumulator of the pairwise loop (lines 276–330):
start from `{"score": 0.0, "pair": None}` and replace only on a strictly
greater score (`if blended > highest["score"]`).  `score A B` abstracts the
whole per-pair evaluation (haversine geometry, prediction, Monte-Carlo
blend) of lines 282–307, which is real-valued and randomised. -/
def bestPair (score : Rail.Train → Rail.Train → ℚ) (trains : List Rail.Train) :
    ℚ × Option (Rail.Train × Rail.Train) :=
  (Rail.pairsOf trains).foldl
    (fun h p => if score p.1 p.2 > h.1 then (score p.1 p.2, some p) else h)
    (0, none)

/-- Decision record returned by `/decide`; the source also echoes reason
strings, diagnostic details and the parameter maps, which carry no logic. -/
structure Response where
  action : String
  train_id : Option String := none
  suggested_path : Option (List String) := none
  blocked_edge : Option (String × String) := none
  score : ℚ := 0
deriving DecidableEq, Repr

/-- The conflict branch of `decide` (lines 332–381): pick the loser by
`low = A if pa <= pb else B`, locate its current edge, block it in a fresh
set, and attempt a reroute with `dijkstra`. -/
def conflictResp (elen : String → String → ℚ) (stationKeys : List String)
    (edges : List (String × String)) (fuel : ℕ) (best1 : ℚ)
    (A B : Rail.Train) : Response :=
  let low := if A.priority ≤ B.priority then A else B
  let idx? : Option ℕ :=
    if 2 ≤ low.path.length then
      some (min (max ⌊low.progress * ((low.path.length - 1 : ℕ) : ℚ)⌋ 0).toNat
        (low.path.length - 2))
    else none
  let blocked_edge : Option (String × String) :=
    match idx? with
    | some i =>
      let u := low.path.getD i ""
      match (if i + 1 < low.path.length then some (low.path.getD (i+1) "") else none) with
      | some v => if v ≠ "" then some (u, v) else none
      | none => none
    | none => none
  let blocked_set : List (String × String) :=
    match blocked_edge with
    | some e => [e]
    | none => []
  let startSt : String :=
    match idx? with
    | some i => low.path.getD i ""
    | none => low.source
  let new_path := dijkstra stationKeys edges startSt low.destination blocked_set elen fuel
  { action := if new_path.isSome then "REQUEST_CONFIRMATION" else "STOP_BOTH",
    train_id := some low.id,
    suggested_path := new_path,
    blocked_edge := blocked_edge,
    score := best1 }

/-- The `/decide` cycle of `extreme_ai_sync.py:252`, after payload
normalisation: run the pairwise scan, then act on the highest pair when
`highest["score"] >= RISK_THRESHOLD and highest["pair"]`
(`RISK_THRESHOLD = 0.55`), else return NORMAL.  The blocked set used by the
reroute is created afresh inside the call (lines 358–360): no blocked state
survives between calls. -/
def decide (score : Rail.Train → Rail.Train → ℚ) (elen : String → String → ℚ)
    (stationKeys : List String) (edges : List (String × String))
    (trains : List Rail.Train) (fuel : ℕ) : Response :=
  let best := bestPair score trains
  match best.2 with
  | some (A, B) =>
    if 11/20 ≤ best.1 then conflictResp elen stationKeys edges fuel best.1 A B
    else { action := "NORMAL", score := best.1 }
  | none => { action := "NORMAL", score := best.1 }

/-- Payload of `/apply_reroute`. -/
structure ApplyModel where
  train_id : String
  new_path : List String
deriving DecidableEq, Repr

/-- Acknowledgement returned by `/apply_reroute`. -/
structure ApplyResp where
  status : String
  train_id : String
  new_path : List String
deriving DecidableEq, Repr

/-- Model of `apply_reroute` (`extreme_ai_sync.py:394`): a stateless acknowledgement
that performs no validation of the supplied path. -/
def apply_reroute (m : ApplyModel) : ApplyResp :=
  ⟨"ok", m.train_id, m.new_path⟩

/-- The node set of the router's adjacency structure: station keys together
with every edge endpoint (lines 123–130). -/
def nodesOf (stationKeys : List String) (edges : List (String × String)) :
    List String :=
  stationKeys ++ edges.foldr (fun uv acc => uv.1 :: uv.2 :: acc) []

end ESync

namespace DistAI

/-- Blocked-edge set of `distance_ai_server.py:22` (a module-level
`Set[Tuple[str, str]]`), modelled as a duplicate-free list threaded through
`decide` explicitly. -/
abbrev BS := List (String × String)

/-- Python `set.add`. -/
def insertEdge (bs : BS) (e : String × String) : BS :=
  if e ∈ bs then bs else bs ++ [e]

/-- Neighbour-list adjacency of `distance_ai_server.dijkstra` (values are
plain node names; weights are recomputed on relaxation). -/
abbrev NAdj := List (String × List String)

/-- Membership test `node in adj`. -/
def nadjHasKey : NAdj → String → Bool
  | [], _ => false
  | (k, _) :: rest, s => k = s || nadjHasKey rest s

/-- Lookup `adj[k]`, with `none` for Python's `KeyError`. -/
def nadjFind : NAdj → String → Option (List String)
  | [], _ => none
  | (k, l) :: rest, s => if k = s then some l else nadjFind rest s

/-- Append step `adj[k].append(x)`. -/
def nadjAppend : NAdj → String → String → NAdj
  | [], k, x => [(k, [x])]
  | (k', l) :: rest, k, x =>
    if k' = k then (k', l ++ [x]) :: rest else (k', l) :: nadjAppend rest k x

/-- The edge-insertion loop of lines 70–73: `adj[u].append(v);
adj[v].append(u)` for every unblocked edge.  An edge endpoint absent from
the adjacency keys raises `KeyError` (`u` is accessed first). -/
def buildAdjGo (blocked : BS) : NAdj → List (String × String) → Except String NAdj
  | adj, [] => .ok adj
  | adj, (u, v) :: rest =>
    if (u, v) ∈ blocked ∨ (v, u) ∈ blocked then buildAdjGo blocked adj rest
    else if ¬ nadjHasKey adj u then .error "KeyError"
    else if ¬ nadjHasKey adj v then .error "KeyError"
    else buildAdjGo blocked (nadjAppend (nadjAppend adj u v) v u) rest

/-- Lines 69–73: `adj = {node: [] for node in stations}` followed by the
edge-insertion loop. -/
def buildAdj (stationKeys : List String) (edges : List (String × String))
    (blocked : BS) : Except String NAdj :=
  buildAdjGo blocked (stationKeys.map (fun s => (s, []))) edges

/-- The `dist` dict: `none` plays `float("inf")`. -/
abbrev DistMap := List (String × Option ℚ)

/-- Lookup `dist[k]` (outer `none` is a `KeyError`). -/
def distFind : DistMap → String → Option (Option ℚ)
  | [], _ => none
  | (k, v) :: rest, s => if k = s then some v else distFind rest s

/-- Assignment `dist[k] = v`. -/
def distSet : DistMap → String → Option ℚ → DistMap
  | [], k, v => [(k, v)]
  | (k', v') :: rest, k, v =>
    if k' = k then (k', v) :: rest else (k', v') :: distSet rest k v

/-- Comparison `newd < dist[nei]` with `none` as infinity. -/
def ltInf (q : ℚ) : Option ℚ → Bool
  | none => true
  | some c => if q < c then true else false

/-- Lines 86–94: relax each neighbour of `node`; `w` stands for the
haversine distance between the two stations' coordinates. -/
def relax (w : String → String → ℚ) (node : String) (cost : ℚ)
    (path : List String) :
    List String → List Rail.Entry → DistMap →
    Except String (List Rail.Entry × DistMap)
  | [], pq, dist => .ok (pq, dist)
  | nei :: more, pq, dist =>
    match distFind dist nei with
    | none => .error "KeyError"
    | some cur =>
      let newd := cost + w node nei
      if ltInf newd cur then
        relax w node cost path more (pq ++ [⟨newd, nei, path ++ [node]⟩])
          (distSet dist nei (some newd))
      else relax w node cost path more pq dist

/-- The `while pq:` loop of `distance_ai_server.dijkstra` (lines 80–96).
The popped path omits its final node (`return path + [node]` on the goal);
`adj[node]` raises `KeyError` when `node` is not an adjacency key. -/
def loop (adj : NAdj) (w : String → String → ℚ) (goal : String) :
    List Rail.Entry → DistMap → ℕ → Except String (Option (List String))
  | _, _, 0 => .error "fuel"
  | pq, dist, fuel + 1 =>
    match Rail.popMin pq with
    | none => .ok none
    | some (e, rest) =>
      if e.node = goal then .ok (some (e.path ++ [e.node]))
      else
        match nadjFind adj e.node with
        | none => .error "KeyError"
        | some nbrs =>
          match relax w e.node e.cost e.path nbrs rest dist with
          | .error msg => .error msg
          | .ok (pq', dist') => loop adj w goal pq' dist' fuel

/-- Model of `dijkstra` of `distance_ai_server.py:65`.  `dist` starts at infinity for
every adjacency key, then `dist[start] = 0` (which inserts `start` even when
it is not a station). -/
def dijkstra (stationKeys : List String) (edges : List (String × String))
    (start goal : String) (blocked : BS) (w : String → String → ℚ)
    (fuel : ℕ) : Except String (Option (List String)) :=
  match buildAdj stationKeys edges blocked with
  | .error msg => .error msg
  | .ok adj =>
    let dist0 := distSet (adj.map (fun kv => (kv.1, (none : Option ℚ)))) start (some 0)
    loop adj w goal [⟨0, start, []⟩] dist0 fuel

/-- Decision payload of `distance_ai_server.decide`. -/
structure DResp where
  action : String
  train_id : Option String := none
  suggested_path : Option (List String) := none
deriving DecidableEq, Repr

/-- Selection `low = B if A.priority > B.priority else A` (line 118). -/
def loserOf (A B : Rail.Train) : Rail.Train :=
  if B.priority < A.priority then B else A

/-- Index `idx = min(int(low.progress * (len(low.path)-1)), len(low.path)-2)`
(line 121). -/
def edgeIdx (t : Rail.Train) : ℤ :=
  min (Rail.pyInt (t.progress * ((t.path.length : ℤ) - 1 : ℤ))) ((t.path.length : ℤ) - 2)

/-- Lines 117–148: choose the loser, block its current edge in the
process-wide set, and attempt a reroute.  The set mutation happens before
the `dijkstra` call, so the updated set is returned even when the search
raises; an `IndexError` while locating the edge propagates with the set
unchanged (`low.path[idx]` is evaluated before the `add`). -/
def handleConflict (w : String → String → ℚ) (stationKeys : List String)
    (edges : List (String × String)) (A B : Rail.Train) (bs : BS)
    (fuel : ℕ) : BS × Except String DResp :=
  let low := loserOf A B
  let idx := edgeIdx low
  match Rail.pyGet low.path idx, Rail.pyGet low.path (idx + 1) with
  | .ok u, .ok v =>
    let bs' := insertEdge bs (u, v)
    match dijkstra stationKeys edges u low.destination bs' w fuel with
    | .ok (some p) => (bs', .ok ⟨"REQUEST_CONFIRMATION", some low.id, some p⟩)
    | .ok none => (bs', .ok ⟨"STOP_BOTH", none, none⟩)
    | .error msg => (bs', .error msg)
  | .error msg, _ => (bs, .error msg)
  | _, .error msg => (bs, .error msg)

/-- The pair scan of lines 106–150: act on the **first** pair (in nested
`i < j` iteration order) whose current haversine distance is below
`SAFE_DISTANCE = 1200`; `hav` abstracts
`haversine(A.lat, A.lon, B.lat, B.lon)`. -/
def scan (hav : ℚ → ℚ → ℚ → ℚ → ℚ) (w : String → String → ℚ)
    (stationKeys : List String) (edges : List (String × String)) :
    List (Rail.Train × Rail.Train) → BS → ℕ → BS × Except String DResp
  | [], bs, _ => (bs, .ok ⟨"NORMAL", none, none⟩)
  | (A, B) :: rest, bs, fuel =>
    if hav A.lat A.lon B.lat B.lon < 1200 then
      handleConflict w stationKeys edges A B bs fuel
    else scan hav w stationKeys edges rest bs fuel

/-- Model of `decide` of `distance_ai_server.py:101`, with the module-level blocked
set passed and returned explicitly. -/
def decide (hav : ℚ → ℚ → ℚ → ℚ → ℚ) (w : String → String → ℚ)
    (stationKeys : List String) (edges : List (String × String))
    (trains : List Rail.Train) (bs : BS) (fuel : ℕ) :
    BS × Except String DResp :=
  scan hav w stationKeys edges (Rail.pairsOf trains) bs fuel

/-- Model of `apply_reroute` of `distance_ai_server.py:155`: the same stateless
acknowledgement as the sync server. -/
def apply_reroute (m : ESync.ApplyModel) : ESync.ApplyResp :=
  ⟨"ok", m.train_id, m.new_path⟩

end DistAI

namespace EServer

/-- Weighted adjacency of `extreme_ai_server.dijkstra`
(`extreme_ai_server.py:321`): built from the stations dict only; the edge
loop reads `stations[u]` and `stations[v]` for the haversine weight, so an
endpoint absent from `stations` raises `KeyError` (`u` first).  `wgt`
abstracts `haversine(...) * (1 + risk_factor)` (the environment's segment
risks enter only through it). -/
def buildAdjGo (stations : List (String × ℚ × ℚ))
    (blocked : List (String × String)) (wgt : String → String → ℚ) :
    ESync.Adj → List (String × String) → Except String ESync.Adj
  | adj, [] => .ok adj
  | adj, (u, v) :: rest =>
    if (u, v) ∈ blocked ∨ (v, u) ∈ blocked then
      buildAdjGo stations blocked wgt adj rest
    else
      match Rail.lookupStation stations u with
      | none => .error "KeyError"
      | some _ =>
        match Rail.lookupStation stations v with
        | none => .error "KeyError"
        | some _ =>
          let d := wgt u v
          buildAdjGo stations blocked wgt
            (ESync.adjAppend (ESync.adjAppend adj u (v, d)) v (u, d)) rest

/-- Construction `adj = {s: [] for s in stations}` (line 323) followed by the edge loop. -/
def buildAdj (stations : List (String × ℚ × ℚ))
    (edges : List (String × String)) (blocked : List (String × String))
    (wgt : String → String → ℚ) : Except String ESync.Adj :=
  buildAdjGo stations blocked wgt (stations.map (fun s => (s.1, []))) edges

/-- The `while pq:` loop of `extreme_ai_server.dijkstra` (lines 341–349):
a visited-set variant that skips settled nodes. -/
def loop (adj : ESync.Adj) (goal : String) :
    List Rail.Entry → List String → ℕ → Option (List String)
  | _, _, 0 => none
  | pq, visited, fuel + 1 =>
    match Rail.popMin pq with
    | none => none
    | some (e, rest) =>
      if e.node ∈ visited then loop adj goal rest visited fuel
      else if e.node = goal then some e.path
      else
        let visited' := visited ++ [e.node]
        loop adj goal
          (rest ++ ((ESync.adjGet adj e.node).filter (fun nw => nw.1 ∉ visited')).map
            (fun nw => ⟨e.cost + nw.2, nw.1, e.path ++ [nw.1]⟩))
          visited' fuel

/-- Model of `dijkstra` of `extreme_ai_server.py:321`. -/
def dijkstra (stations : List (String × ℚ × ℚ))
    (edges : List (String × String)) (start goal : String)
    (blocked : List (String × String)) (wgt : String → String → ℚ)
    (fuel : ℕ) : Except String (Option (List String)) :=
  match buildAdj stations edges blocked wgt with
  | .error msg => .error msg
  | .ok adj =>
    if ESync.adjHasKey adj start && ESync.adjHasKey adj goal then
      .ok (loop adj goal [⟨0, start, [start]⟩] [] fuel)
    else .ok none

end EServer

namespace ESync

/-- Adjacency-validity of a path: every consecutive step `(a, b)` follows a
recorded neighbour entry `(b, w)` of `a`. -/
def chainOk (adj : Adj) : List String → Prop
  | [] => True
  | [_] => True
  | a :: b :: rest => (∃ w, (b, w) ∈ adjGet adj a) ∧ chainOk adj (b :: rest)

/-- Queue invariant of the search loop: an entry's path ends at its node and
is adjacency-valid. -/
def EntryOk (adj : Adj) (e : Rail.Entry) : Prop :=
  e.path.getLast? = some e.node ∧ chainOk adj e.path

end ESync

/-- Constant pair-score fixture; realisable by the blended evaluation (for
instance, two stopped trains at the same position with a saturated external
feed score near 1). -/
def scoreOne : Rail.Train → Rail.Train → ℚ := fun _ _ => 1

/-- Constant pair-score fixture below the `0.55` threshold. -/
def scoreHalf : Rail.Train → Rail.Train → ℚ := fun _ _ => 1/2

/-- Constant edge-length fixture (any positive haversine value). -/
def elen1 : String → String → ℚ := fun _ _ => 1

/-- Stations for the mid-edge prediction run: `B` sits about 1000 m north of
`A` (0.009° of latitude). -/
def stations5 : List (String × ℚ × ℚ) := [("A", (0, 0)), ("B", (9/1000, 0))]

/-- Train for the mid-edge prediction run: on edge `(A, B)` at progress 0,
1.8 km/h (0.5 m/s). -/
def train5 : Rail.Train := ⟨"T5", 0, 0, "A", "B", ["A", "B"], 0, 9/5, 1⟩

/-- Edge length matching `stations5` (about 1000 m). -/
def elen5 : String → String → ℚ := fun _ _ => 1000

/-- Station map for the missing-station prediction run: only `Y` is known. -/
def stations7 : List (String × ℚ × ℚ) := [("Y", (1, 1))]

/-- Train for the missing-station prediction run: path `[X, Y]` where `X` is
absent from the station map; last reported position `(5, 5)`. -/
def train7 : Rail.Train := ⟨"T7", 5, 5, "X", "Y", ["X", "Y"], 0, 3600, 1⟩

/-- Edge length matching the fallback geometry of `train7`'s walk:
`edge_length_m` resolves the missing `X` to `(0, 0)`, giving roughly 157 km
to `(1, 1)`. -/
def elen7 : String → String → ℚ := fun _ _ => 157000

/-- Train with a single-station path (the predictor must return its last
reported coordinate). -/
def trainP1 : Rail.Train := ⟨"P1", 3, 4, "A", "A", ["A"], 0, 100, 1⟩

/-- Station keys of the three-station triangle graph. -/
def sk6 : List String := ["S1", "S2", "S3"]

/-- Edges of the three-station triangle graph. -/
def es6 : List (String × String) := [("S1", "S2"), ("S2", "S3"), ("S1", "S3")]

/-- Conflict cycle 1, higher-priority partner on edge `(S1, S2)`. -/
def T61 : Rail.Train := ⟨"T1", 0, 0, "S1", "S2", ["S1", "S2"], 0, 100, 1⟩

/-- Conflict cycle 1, lower-priority partner (priority 2). -/
def T62 : Rail.Train := ⟨"T2", 0, 0, "S1", "S2", ["S1", "S2"], 0, 100, 2⟩

/-- Conflict cycle 2, losing train on edge `(S3, S2)`. -/
def T63 : Rail.Train := ⟨"T3", 0, 0, "S3", "S2", ["S3", "S2"], 0, 100, 1⟩

/-- Conflict cycle 2, surviving partner (priority 2). -/
def T64 : Rail.Train := ⟨"T4", 0, 0, "S3", "S2", ["S3", "S2"], 0, 100, 2⟩

/-- Equal-priority train with identifier `A`. -/
def TA : Rail.Train := ⟨"A", 0, 0, "S1", "S2", ["S1", "S2"], 0, 100, 1⟩

/-- Equal-priority train with identifier `B`. -/
def TB : Rail.Train := ⟨"B", 0, 0, "S1", "S2", ["S1", "S2"], 0, 100, 1⟩

/-- Station keys for the distance-server scan fixture. -/
def dsk : List String := ["S1", "S2", "S3"]

/-- Edges for the distance-server scan fixture. -/
def des : List (String × String) := [("S1", "S2"), ("S1", "S3"), ("S3", "S2")]

/-- Scan fixture: train `A` at the origin (priority 1). -/
def dA : Rail.Train := ⟨"A", 0, 0, "S1", "S2", ["S1", "S2"], 0, 100, 1⟩

/-- Scan fixture: train `B` 0.001° east of `A` (priority 2). -/
def dB : Rail.Train := ⟨"B", 0, 1/1000, "S1", "S2", ["S1", "S2"], 0, 100, 2⟩

/-- Scan fixture: train `C` at the same position as `B` (priority 1). -/
def dC : Rail.Train := ⟨"C", 0, 1/1000, "S1", "S2", ["S1", "S2"], 0, 100, 1⟩

/-- Haversine fixture for the scan: 0 m between identical coordinates
(exact for the real `haversine`), 111 m otherwise (the distance of 0.001°
of equatorial longitude, below `SAFE_DISTANCE = 1200`). -/
def hav2 : ℚ → ℚ → ℚ → ℚ → ℚ :=
  fun la lo lb lob => if la = lb ∧ lo = lob then 0 else 111

deriving instance DecidableEq for Except

/-- Station keys of the routed-around-a-blocked-edge run. -/
def skC1 : List String := ["A", "B", "C"]

/-- Edges of the routed-around-a-blocked-edge run. -/
def esC1 : List (String × String) := [("A", "B"), ("B", "C"), ("A", "C")]

/-- Blocked set of the routed-around-a-blocked-edge run. -/
def blockedC1 : List (String × String) := [("A", "B")]

/-- Blocked set storing the reversed orientation `(B, A)` of edge `(A, B)`. -/
def blockedC2 : List (String × String) := [("B", "A")]

/-- Blocked set storing the reversed orientation `(C, A)` of edge `(A, C)`. -/
def blockedC3 : List (String × String) := [("C", "A")]

/-- Station coordinates of the triangle graph, for the variants that read
coordinates during construction. -/
def stationsC1 : List (String × ℚ × ℚ) := [("A", (0, 0)), ("B", (1, 0)), ("C", (0, 1))]

namespace DistAI

/-- One admissible step of the neighbour-list adjacency: `b` occurs in
`adj[a]`. -/
def nstep (adj : NAdj) (a b : String) : Prop :=
  ∃ l, nadjFind adj a = some l ∧ b ∈ l

/-- Adjacency-validity of a path for the neighbour-list adjacency. -/
def nchainOk (adj : NAdj) : List String → Prop
  | [] => True
  | [_] => True
  | a :: b :: rest => nstep adj a b ∧ nchainOk adj (b :: rest)

end DistAI

namespace Rail

/-- The popped entry comes from the queue and the remaining queue is a
sub-collection of it. -/
theorem popMin_mem {l : List Entry} {e : Entry} {rest : List Entry}
    (h : popMin l = some (e, rest)) : e ∈ l ∧ ∀ x ∈ rest, x ∈ l := by
  induction l generalizing e rest with
  | nil => simp [popMin] at h
  | cons a as ih =>
    cases hm : popMin as with
    | none =>
      simp only [popMin, hm, Option.some.injEq, Prod.mk.injEq] at h
      obtain ⟨rfl, rfl⟩ := h
      exact ⟨List.mem_cons_self _ _, by intro x hx; simp at hx⟩
    | some p =>
      obtain ⟨m, r⟩ := p
      simp only [popMin, hm] at h
      split at h
      · simp only [Option.some.injEq, Prod.mk.injEq] at h
        obtain ⟨rfl, rfl⟩ := h
        exact ⟨List.mem_cons_self _ _, fun x hx => List.mem_cons_of_mem _ hx⟩
      · simp only [Option.some.injEq, Prod.mk.injEq] at h
        obtain ⟨rfl, rfl⟩ := h
        obtain ⟨hm1, hm2⟩ := ih hm
        refine ⟨List.mem_cons_of_mem _ hm1, ?_⟩
        intro x hx
        rcases List.mem_cons.mp hx with h1 | h2
        · subst h1; exact List.mem_cons_self _ _
        · exact List.mem_cons_of_mem _ (hm2 x h2)

end Rail

namespace ESync

/-- Effect of an append on a lookup. -/
theorem adjGet_adjAppend (a : Adj) (k : String) (x : String × ℚ) (s : String) :
    adjGet (adjAppend a k x) s =
      if k = s then adjGet a s ++ [x] else adjGet a s := by
  induction a with
  | nil => by_cases h : k = s <;> simp [adjAppend, adjGet, h]
  | cons kv rest ih =>
    obtain ⟨k', l⟩ := kv
    by_cases h1 : k' = k
    · subst h1
      by_cases h2 : k' = s <;> simp [adjAppend, adjGet, h2]
    · by_cases h2 : k' = s
      · subst h2
        have hks : ¬ k = k' := fun hk => h1 hk.symm
        simp [adjAppend, h1, adjGet, hks]
      · simp [adjAppend, h1, adjGet, h2, ih]

end ESync

namespace ESync

/-- When every stored neighbour list is empty, so is every lookup. -/
theorem adjGet_nil_of_values {a : Adj}
    (h : ∀ kv ∈ a, kv.2 = ([] : List (String × ℚ))) (s : String) :
    adjGet a s = [] := by
  induction a with
  | nil => rfl
  | cons kv rest ih =>
    obtain ⟨k', l⟩ := kv
    by_cases hk : k' = s
    · simpa [adjGet, hk] using h (k', l) (List.mem_cons_self _ _)
    · simpa [adjGet, hk] using ih (fun kv hkv => h kv (List.mem_cons_of_mem _ hkv))

/-- The ensure-key step only ever stores empty neighbour lists. -/
theorem values_nil_adjEnsure {a : Adj}
    (h : ∀ kv ∈ a, kv.2 = ([] : List (String × ℚ))) (k : String) :
    ∀ kv ∈ adjEnsure a k, kv.2 = ([] : List (String × ℚ)) := by
  intro kv hkv
  unfold adjEnsure at hkv
  split at hkv
  · exact h kv hkv
  · rcases List.mem_append.mp hkv with h1 | h2
    · exact h kv h1
    · simp only [List.mem_singleton] at h2
      subst h2
      rfl

/-- Every neighbour list of `initAdj` is empty. -/
theorem values_nil_initAdj (sk : List String) (es : List (String × String)) :
    ∀ kv ∈ initAdj sk es, kv.2 = ([] : List (String × ℚ)) := by
  have h0 : ∀ (l : List String) (a : Adj),
      (∀ kv ∈ a, kv.2 = ([] : List (String × ℚ))) →
      ∀ kv ∈ l.foldl (fun a s => adjEnsure a s) a, kv.2 = ([] : List (String × ℚ)) := by
    intro l
    induction l with
    | nil => intro a ha; simpa using ha
    | cons x xs ih =>
      intro a ha
      exact ih (adjEnsure a x) (values_nil_adjEnsure ha x)
  have h1 : ∀ (l : List (String × String)) (a : Adj),
      (∀ kv ∈ a, kv.2 = ([] : List (String × ℚ))) →
      ∀ kv ∈ l.foldl (fun a uv => adjEnsure (adjEnsure a uv.1) uv.2) a,
        kv.2 = ([] : List (String × ℚ)) := by
    intro l
    induction l with
    | nil => intro a ha; simpa using ha
    | cons x xs ih =>
      intro a ha
      exact ih _ (values_nil_adjEnsure (values_nil_adjEnsure ha x.1) x.2)
  exact h1 es _ (h0 sk [] (by simp))

/-- Every lookup in `initAdj` is empty. -/
theorem adjGet_initAdj (sk : List String) (es : List (String × String))
    (s : String) : adjGet (initAdj sk es) s = [] :=
  adjGet_nil_of_values (values_nil_initAdj sk es) s

end ESync

namespace ESync

/-- Every neighbour entry produced by the edge-insertion loop either was
already present or comes from an unblocked edge of the list, in one of the
two stored orientations. -/
theorem mem_adjGet_addEdges {elen : String → String → ℚ}
    {blocked : List (String × String)} :
    ∀ (es : List (String × String)) (a : Adj) (s : String) (nw : String × ℚ),
      nw ∈ adjGet (addEdges elen blocked a es) s →
      nw ∈ adjGet a s ∨
        ∃ uv ∈ es, ¬((uv.1, uv.2) ∈ blocked ∨ (uv.2, uv.1) ∈ blocked) ∧
          ((s = uv.1 ∧ nw.1 = uv.2) ∨ (s = uv.2 ∧ nw.1 = uv.1)) := by
  intro es
  induction es with
  | nil => intro a s nw h; exact Or.inl h
  | cons uv rest ih =>
    intro a s nw h
    rw [show addEdges elen blocked a (uv :: rest) =
        addEdges elen blocked
          (if (uv.1, uv.2) ∈ blocked ∨ (uv.2, uv.1) ∈ blocked then a
           else adjAppend (adjAppend a uv.1 (uv.2, elen uv.1 uv.2)) uv.2
             (uv.1, elen uv.1 uv.2)) rest from rfl] at h
    rcases ih _ s nw h with hbase | ⟨e, he, hnb, hor⟩
    · by_cases hb : (uv.1, uv.2) ∈ blocked ∨ (uv.2, uv.1) ∈ blocked
      · rw [if_pos hb] at hbase
        exact Or.inl hbase
      · rw [if_neg hb] at hbase
        rw [adjGet_adjAppend, adjGet_adjAppend] at hbase
        by_cases h2 : uv.2 = s
        · rw [if_pos h2] at hbase
          rcases List.mem_append.mp hbase with h3 | h3
          · by_cases h1 : uv.1 = s
            · rw [if_pos h1] at h3
              rcases List.mem_append.mp h3 with h4 | h4
              · exact Or.inl h4
              · simp only [List.mem_singleton] at h4
                subst h4
                exact Or.inr ⟨uv, List.mem_cons_self _ _, hb, Or.inl ⟨h1.symm, rfl⟩⟩
            · rw [if_neg h1] at h3
              exact Or.inl h3
          · simp only [List.mem_singleton] at h3
            subst h3
            exact Or.inr ⟨uv, List.mem_cons_self _ _, hb, Or.inr ⟨h2.symm, rfl⟩⟩
        · rw [if_neg h2] at hbase
          by_cases h1 : uv.1 = s
          · rw [if_pos h1] at hbase
            rcases List.mem_append.mp hbase with h3 | h3
            · exact Or.inl h3
            · simp only [List.mem_singleton] at h3
              subst h3
              exact Or.inr ⟨uv, List.mem_cons_self _ _, hb, Or.inl ⟨h1.symm, rfl⟩⟩
          · rw [if_neg h1] at hbase
            exact Or.inl hbase
    · exact Or.inr ⟨e, List.mem_cons_of_mem _ he, hnb, hor⟩

end ESync

namespace ESync

/-- Extending an adjacency-valid path by one recorded neighbour of its last
node keeps it adjacency-valid. -/
theorem chainOk_concat {adj : Adj} {p : List String} {n m : String}
    (hc : chainOk adj p) (hl : p.getLast? = some n)
    (hm : ∃ w, (m, w) ∈ adjGet adj n) : chainOk adj (p ++ [m]) := by
  induction p generalizing n with
  | nil => simp at hl
  | cons a tl ih =>
    cases tl with
    | nil =>
      simp only [List.getLast?_singleton, Option.some.injEq] at hl
      subst hl
      exact ⟨hm, trivial⟩
    | cons b rest =>
      obtain ⟨h1, h2⟩ := hc
      have hl' : (b :: rest).getLast? = some n := by
        simpa [List.getLast?_cons_cons] using hl
      exact ⟨h1, ih h2 hl' hm⟩

/-- Every consecutive pair of an adjacency-valid path is a recorded
neighbour step. -/
theorem chainOk_zip {adj : Adj} :
    ∀ {p : List String}, chainOk adj p →
      ∀ pr ∈ p.zip p.tail, ∃ w, (pr.2, w) ∈ adjGet adj pr.1 := by
  intro p
  induction p with
  | nil => intro _ pr hpr; simp at hpr
  | cons a tl ih =>
    cases tl with
    | nil => intro _ pr hpr; simp at hpr
    | cons b rest =>
      intro hc pr hpr
      obtain ⟨h1, h2⟩ := hc
      simp only [List.zip_cons_cons, List.tail_cons, List.mem_cons] at hpr
      rcases hpr with h3 | h3
      · subst h3; exact h1
      · exact ih h2 pr (by simpa [List.tail_cons] using h3)

/-- Every entry of the pushed queue comes from the accumulator or is the
relaxation of one of the supplied neighbours. -/
theorem mem_pushNeighbors {seen : List (String × ℚ)} {e : Rail.Entry} :
    ∀ (nbrs : List (String × ℚ)) (acc : List Rail.Entry) (x : Rail.Entry),
      x ∈ pushNeighbors seen e nbrs acc →
      x ∈ acc ∨ ∃ nw ∈ nbrs, x = ⟨e.cost + nw.2, nw.1, e.path ++ [nw.1]⟩ := by
  intro nbrs
  induction nbrs with
  | nil => intro acc x h; exact Or.inl h
  | cons nw rest ih =>
    intro acc x h
    rw [show pushNeighbors seen e (nw :: rest) acc =
        pushNeighbors seen e rest
          (if seenLe seen nw.1 (e.cost + nw.2) then acc
           else acc ++ [⟨e.cost + nw.2, nw.1, e.path ++ [nw.1]⟩]) from rfl] at h
    rcases ih _ x h with hacc | ⟨nw', hnw', hx⟩
    · split at hacc
      · exact Or.inl hacc
      · rcases List.mem_append.mp hacc with h1 | h1
        · exact Or.inl h1
        · simp only [List.mem_singleton] at h1
          exact Or.inr ⟨nw, List.mem_cons_self _ _, h1⟩
    · exact Or.inr ⟨nw', List.mem_cons_of_mem _ hnw', hx⟩

/-- Queue invariant of the search loop: if every queued entry is valid, any
returned path is adjacency-valid. -/
theorem loop_chainOk {adj : Adj} {goal : String} :
    ∀ (fuel : ℕ) (pq : List Rail.Entry) (seen : List (String × ℚ))
      (p : List String),
      (∀ x ∈ pq, EntryOk adj x) → loop adj goal pq seen fuel = some p →
      chainOk adj p := by
  intro fuel
  induction fuel with
  | zero => intro pq seen p _ h; simp [loop] at h
  | succ n ih =>
    intro pq seen p hinv h
    cases hpop : Rail.popMin pq with
    | none => simp [loop, hpop] at h
    | some er =>
      obtain ⟨e, rest⟩ := er
      simp only [loop, hpop] at h
      obtain ⟨hmem, hsub⟩ := Rail.popMin_mem hpop
      split at h
      · simp only [Option.some.injEq] at h
        subst h
        exact (hinv e hmem).2
      · split at h
        · exact ih rest seen p (fun x hx => hinv x (hsub x hx)) h
        · refine ih _ _ p ?_ h
          intro x hx
          rcases mem_pushNeighbors _ _ x hx with h1 | ⟨nw, hnw, hx'⟩
          · exact hinv x (hsub x h1)
          · subst hx'
            obtain ⟨hlast, hchain⟩ := hinv e hmem
            constructor
            · exact List.getLast?_concat _
            · exact chainOk_concat hchain hlast ⟨nw.2, hnw⟩

end ESync

namespace DistAI

/-- Effect of an append on a neighbour-list lookup. -/
theorem nadjFind_nadjAppend (a : NAdj) (k : String) (x : String) (s : String) :
    nadjFind (nadjAppend a k x) s =
      if k = s then some ((nadjFind a s).getD [] ++ [x]) else nadjFind a s := by
  induction a with
  | nil => by_cases h : k = s <;> simp [nadjAppend, nadjFind, h]
  | cons kv rest ih =>
    obtain ⟨k', l⟩ := kv
    by_cases h1 : k' = k
    · subst h1
      by_cases h2 : k' = s <;> simp [nadjAppend, nadjFind, h2]
    · by_cases h2 : k' = s
      · subst h2
        have hks : ¬ k = k' := fun hk => h1 hk.symm
        simp [nadjAppend, h1, nadjFind, hks]
      · simp [nadjAppend, h1, nadjFind, h2, ih]

/-- A step admissible after an append was admissible before, or is the
appended neighbour. -/
theorem nstep_nadjAppend {a : NAdj} {k x s b : String}
    (h : nstep (nadjAppend a k x) s b) : nstep a s b ∨ (s = k ∧ b = x) := by
  obtain ⟨l, hfind, hb⟩ := h
  rw [nadjFind_nadjAppend] at hfind
  by_cases hk : k = s
  · rw [if_pos hk] at hfind
    simp only [Option.some.injEq] at hfind
    subst hfind
    rcases List.mem_append.mp hb with h1 | h1
    · cases hf : nadjFind a s with
      | none => rw [hf] at h1; simp at h1
      | some l0 =>
        rw [hf] at h1
        exact Or.inl ⟨l0, hf, by simpa using h1⟩
    · exact Or.inr ⟨hk.symm, by simpa using h1⟩
  · rw [if_neg hk] at hfind
    exact Or.inl ⟨l, hfind, hb⟩

/-- A step admissible in the built adjacency was admissible initially or
comes from an unblocked edge of the list, in one of its two orientations. -/
theorem nstep_buildAdjGo {blocked : BS} :
    ∀ (es : List (String × String)) (a adj' : NAdj),
      buildAdjGo blocked a es = .ok adj' →
      ∀ s b, nstep adj' s b →
      nstep a s b ∨ ∃ uv ∈ es,
        ¬((uv.1, uv.2) ∈ blocked ∨ (uv.2, uv.1) ∈ blocked) ∧
        ((s = uv.1 ∧ b = uv.2) ∨ (s = uv.2 ∧ b = uv.1)) := by
  intro es
  induction es with
  | nil =>
    intro a adj' hok s b h
    simp only [buildAdjGo, Except.ok.injEq] at hok
    subst hok
    exact Or.inl h
  | cons uv rest ih =>
    intro a adj' hok s b h
    obtain ⟨u, v⟩ := uv
    have heq : buildAdjGo blocked a ((u, v) :: rest) =
        if (u, v) ∈ blocked ∨ (v, u) ∈ blocked then buildAdjGo blocked a rest
        else if ¬ nadjHasKey a u then .error "KeyError"
        else if ¬ nadjHasKey a v then .error "KeyError"
        else buildAdjGo blocked (nadjAppend (nadjAppend a u v) v u) rest := rfl
    rw [heq] at hok
    by_cases hbl : (u, v) ∈ blocked ∨ (v, u) ∈ blocked
    · rw [if_pos hbl] at hok
      rcases ih _ _ hok s b h with h1 | ⟨e, he, hnb, hor⟩
      · exact Or.inl h1
      · exact Or.inr ⟨e, List.mem_cons_of_mem _ he, hnb, hor⟩
    · rw [if_neg hbl] at hok
      by_cases hu : nadjHasKey a u
      · rw [if_neg (by simpa using hu)] at hok
        by_cases hv : nadjHasKey a v
        · rw [if_neg (by simpa using hv)] at hok
          rcases ih _ _ hok s b h with h1 | ⟨e, he, hnb, hor⟩
          · rcases nstep_nadjAppend h1 with h2 | h2
            · rcases nstep_nadjAppend h2 with h3 | h3
              · exact Or.inl h3
              · exact Or.inr ⟨(u, v), List.mem_cons_self _ _, hbl, Or.inl h3⟩
            · exact Or.inr ⟨(u, v), List.mem_cons_self _ _, hbl, Or.inr h2⟩
          · exact Or.inr ⟨e, List.mem_cons_of_mem _ he, hnb, hor⟩
        · rw [if_pos (by simpa using hv)] at hok
          simp at hok
      · rw [if_pos (by simpa using hu)] at hok
        simp at hok

/-- The initial adjacency of the distance router stores only empty
neighbour lists. -/
theorem nadjFind_init {sk : List String} {s : String} {l : List String}
    (h : nadjFind (sk.map (fun s => (s, []))) s = some l) : l = [] := by
  induction sk with
  | nil => simp [nadjFind] at h
  | cons x xs ih =>
    simp only [List.map_cons, nadjFind] at h
    split at h
    · simp only [Option.some.injEq] at h
      exact h.symm
    · exact ih h

/-- Extending an adjacency-valid path by an admissible step of its last
node keeps it adjacency-valid. -/
theorem nchainOk_concat {adj : NAdj} {p : List String} {n m : String}
    (hc : nchainOk adj p) (hl : p.getLast? = some n) (hm : nstep adj n m) :
    nchainOk adj (p ++ [m]) := by
  induction p generalizing n with
  | nil => simp at hl
  | cons a tl ih =>
    cases tl with
    | nil =>
      simp only [List.getLast?_singleton, Option.some.injEq] at hl
      subst hl
      exact ⟨hm, trivial⟩
    | cons b rest =>
      obtain ⟨h1, h2⟩ := hc
      have hl' : (b :: rest).getLast? = some n := by
        simpa [List.getLast?_cons_cons] using hl
      exact ⟨h1, ih h2 hl' hm⟩

/-- Every consecutive pair of an adjacency-valid path is an admissible
step. -/
theorem nchainOk_zip {adj : NAdj} :
    ∀ {p : List String}, nchainOk adj p →
      ∀ pr ∈ p.zip p.tail, nstep adj pr.1 pr.2 := by
  intro p
  induction p with
  | nil => intro _ pr hpr; simp at hpr
  | cons a tl ih =>
    cases tl with
    | nil => intro _ pr hpr; simp at hpr
    | cons b rest =>
      intro hc pr hpr
      obtain ⟨h1, h2⟩ := hc
      simp only [List.zip_cons_cons, List.tail_cons, List.mem_cons] at hpr
      rcases hpr with h3 | h3
      · subst h3; exact h1
      · exact ih h2 pr (by simpa [List.tail_cons] using h3)

/-- Every entry of the relaxed queue comes from the input queue or is the
relaxation of one of the supplied neighbours. -/
theorem relax_mem {w : String → String → ℚ} {node : String} {cost : ℚ}
    {path : List String} :
    ∀ (nbrs : List String) (pq : List Rail.Entry) (dist : DistMap)
      (pq' : List Rail.Entry) (dist' : DistMap),
      relax w node cost path nbrs pq dist = .ok (pq', dist') →
      ∀ x ∈ pq', x ∈ pq ∨
        ∃ nei ∈ nbrs, x = ⟨cost + w node nei, nei, path ++ [node]⟩ := by
  intro nbrs
  induction nbrs with
  | nil =>
    intro pq dist pq' dist' hok x hx
    simp only [relax, Except.ok.injEq, Prod.mk.injEq] at hok
    obtain ⟨h1, _⟩ := hok
    subst h1
    exact Or.inl hx
  | cons nei more ih =>
    intro pq dist pq' dist' hok x hx
    cases hf : distFind dist nei with
    | none => simp [relax, hf] at hok
    | some cur =>
      simp only [relax, hf] at hok
      split at hok
      · rcases ih _ _ _ _ hok x hx with h1 | ⟨n2, hn2, hx2⟩
        · rcases List.mem_append.mp h1 with h2 | h2
          · exact Or.inl h2
          · simp only [List.mem_singleton] at h2
            exact Or.inr ⟨nei, List.mem_cons_self _ _, h2⟩
        · exact Or.inr ⟨n2, List.mem_cons_of_mem _ hn2, hx2⟩
      · rcases ih _ _ _ _ hok x hx with h1 | ⟨n2, hn2, hx2⟩
        · exact Or.inl h1
        · exact Or.inr ⟨n2, List.mem_cons_of_mem _ hn2, hx2⟩

/-- Queue invariant of the distance router's search loop: each entry's path
extended by its node is adjacency-valid, so any returned path is. -/
theorem dloop_chainOk {adj : NAdj} {w : String → String → ℚ} {goal : String} :
    ∀ (fuel : ℕ) (pq : List Rail.Entry) (dist : DistMap) (p : List String),
      (∀ e ∈ pq, nchainOk adj (e.path ++ [e.node])) →
      loop adj w goal pq dist fuel = .ok (some p) → nchainOk adj p := by
  intro fuel
  induction fuel with
  | zero => intro pq dist p _ h; simp [loop] at h
  | succ n ih =>
    intro pq dist p hinv h
    cases hpop : Rail.popMin pq with
    | none => simp [loop, hpop] at h
    | some er =>
      obtain ⟨e, rest⟩ := er
      simp only [loop, hpop] at h
      obtain ⟨hmem, hsub⟩ := Rail.popMin_mem hpop
      split at h
      · simp only [Except.ok.injEq, Option.some.injEq] at h
        subst h
        exact hinv e hmem
      · cases hfind : nadjFind adj e.node with
        | none => simp [hfind] at h
        | some nbrs =>
          simp only [hfind] at h
          cases hrel : relax w e.node e.cost e.path nbrs rest dist with
          | error msg => simp [hrel] at h
          | ok pd =>
            obtain ⟨pq', dist'⟩ := pd
            simp only [hrel] at h
            refine ih pq' dist' p ?_ h
            intro x hx
            rcases relax_mem nbrs rest dist pq' dist' hrel x hx with
              h1 | ⟨nei, hnei, hx2⟩
            · exact hinv x (hsub x h1)
            · subst hx2
              exact nchainOk_concat (hinv e hmem) (List.getLast?_concat _)
                ⟨nbrs, hfind, hnei⟩

/-- A successful distance-router search yields an adjacency-valid path for
the adjacency it built. -/
theorem ddijkstra_chainOk {sk : List String} {es : List (String × String)}
    {start goal : String} {blocked : BS} {w : String → String → ℚ}
    {fuel : ℕ} {p : List String}
    (h : dijkstra sk es start goal blocked w fuel = .ok (some p)) :
    ∃ adj, buildAdj sk es blocked = .ok adj ∧ nchainOk adj p := by
  simp only [dijkstra] at h
  cases hb : buildAdj sk es blocked with
  | error msg => simp [hb] at h
  | ok adj =>
    simp only [hb] at h
    refine ⟨adj, rfl, dloop_chainOk fuel _ _ p ?_ h⟩
    intro e he
    simp only [List.mem_singleton] at he
    subst he
    exact trivial

end DistAI

namespace ESync

/-- Membership analysis of a bidirectional edge insertion. -/
theorem mem_adjGet_insert2 {a : Adj} {u v : String} {d : ℚ} {s : String}
    {nw : String × ℚ}
    (h : nw ∈ adjGet (adjAppend (adjAppend a u (v, d)) v (u, d)) s) :
    nw ∈ adjGet a s ∨ (s = u ∧ nw.1 = v) ∨ (s = v ∧ nw.1 = u) := by
  rw [adjGet_adjAppend, adjGet_adjAppend] at h
  by_cases h2 : v = s
  · rw [if_pos h2] at h
    rcases List.mem_append.mp h with h3 | h3
    · by_cases h1 : u = s
      · rw [if_pos h1] at h3
        rcases List.mem_append.mp h3 with h4 | h4
        · exact Or.inl h4
        · simp only [List.mem_singleton] at h4
          subst h4
          exact Or.inr (Or.inl ⟨h1.symm, rfl⟩)
      · rw [if_neg h1] at h3
        exact Or.inl h3
    · simp only [List.mem_singleton] at h3
      subst h3
      exact Or.inr (Or.inr ⟨h2.symm, rfl⟩)
  · rw [if_neg h2] at h
    by_cases h1 : u = s
    · rw [if_pos h1] at h
      rcases List.mem_append.mp h with h3 | h3
      · exact Or.inl h3
      · simp only [List.mem_singleton] at h3
        subst h3
        exact Or.inr (Or.inl ⟨h1.symm, rfl⟩)
    · rw [if_neg h1] at h
      exact Or.inl h

end ESync

namespace EServer

/-- A neighbour entry of the built adjacency was present initially or comes
from an unblocked edge of the list, in one of its two orientations. -/
theorem mem_adjGet_buildAdjGo {stations : List (String × ℚ × ℚ)}
    {blocked : List (String × String)} {wgt : String → String → ℚ} :
    ∀ (es : List (String × String)) (a adj' : ESync.Adj),
      buildAdjGo stations blocked wgt a es = .ok adj' →
      ∀ (s : String) (nw : String × ℚ), nw ∈ ESync.adjGet adj' s →
      nw ∈ ESync.adjGet a s ∨ ∃ uv ∈ es,
        ¬((uv.1, uv.2) ∈ blocked ∨ (uv.2, uv.1) ∈ blocked) ∧
        ((s = uv.1 ∧ nw.1 = uv.2) ∨ (s = uv.2 ∧ nw.1 = uv.1)) := by
  intro es
  induction es with
  | nil =>
    intro a adj' hok s nw h
    simp only [buildAdjGo, Except.ok.injEq] at hok
    subst hok
    exact Or.inl h
  | cons uv rest ih =>
    intro a adj' hok s nw h
    obtain ⟨u, v⟩ := uv
    have heq : buildAdjGo stations blocked wgt a ((u, v) :: rest) =
        if (u, v) ∈ blocked ∨ (v, u) ∈ blocked then
          buildAdjGo stations blocked wgt a rest
        else
          match Rail.lookupStation stations u with
          | none => .error "KeyError"
          | some _ =>
            match Rail.lookupStation stations v with
            | none => .error "KeyError"
            | some _ =>
              buildAdjGo stations blocked wgt
                (ESync.adjAppend (ESync.adjAppend a u (v, wgt u v)) v
                  (u, wgt u v)) rest := rfl
    rw [heq] at hok
    by_cases hbl : (u, v) ∈ blocked ∨ (v, u) ∈ blocked
    · rw [if_pos hbl] at hok
      rcases ih _ _ hok s nw h with h1 | ⟨e, he, hnb, hor⟩
      · exact Or.inl h1
      · exact Or.inr ⟨e, List.mem_cons_of_mem _ he, hnb, hor⟩
    · rw [if_neg hbl] at hok
      cases hlu : Rail.lookupStation stations u with
      | none => simp [hlu] at hok
      | some cu =>
        simp only [hlu] at hok
        cases hlv : Rail.lookupStation stations v with
        | none => simp [hlv] at hok
        | some cv =>
          simp only [hlv] at hok
          rcases ih _ _ hok s nw h with h1 | ⟨e, he, hnb, hor⟩
          · rcases ESync.mem_adjGet_insert2 h1 with h2 | h2 | h2
            · exact Or.inl h2
            · exact Or.inr ⟨(u, v), List.mem_cons_self _ _, hbl, Or.inl h2⟩
            · exact Or.inr ⟨(u, v), List.mem_cons_self _ _, hbl, Or.inr h2⟩
          · exact Or.inr ⟨e, List.mem_cons_of_mem _ he, hnb, hor⟩

/-- Queue invariant of the visited-set search loop: if every queued entry is
valid, any returned path is adjacency-valid. -/
theorem eloop_chainOk {adj : ESync.Adj} {goal : String} :
    ∀ (fuel : ℕ) (pq : List Rail.Entry) (visited : List String)
      (p : List String),
      (∀ e ∈ pq, ESync.EntryOk adj e) →
      loop adj goal pq visited fuel = some p → ESync.chainOk adj p := by
  intro fuel
  induction fuel with
  | zero => intro pq visited p _ h; simp [loop] at h
  | succ n ih =>
    intro pq visited p hinv h
    cases hpop : Rail.popMin pq with
    | none => simp [loop, hpop] at h
    | some er =>
      obtain ⟨e, rest⟩ := er
      simp only [loop, hpop] at h
      obtain ⟨hmem, hsub⟩ := Rail.popMin_mem hpop
      split at h
      · exact ih rest visited p (fun x hx => hinv x (hsub x hx)) h
      · split at h
        · simp only [Option.some.injEq] at h
          subst h
          exact (hinv e hmem).2
        · refine ih _ _ p ?_ h
          intro x hx
          rcases List.mem_append.mp hx with h1 | h1
          · exact hinv x (hsub x h1)
          · obtain ⟨nw, hnw, hx2⟩ := List.mem_map.mp h1
            subst hx2
            have hnw' := (List.mem_filter.mp hnw).1
            obtain ⟨hlast, hchain⟩ := hinv e hmem
            exact ⟨List.getLast?_concat _,
              ESync.chainOk_concat hchain hlast ⟨nw.2, hnw'⟩⟩

/-- A successful extreme-server search yields an adjacency-valid path for
the adjacency it built. -/
theorem edijkstra_chainOk {stations : List (String × ℚ × ℚ)}
    {es : List (String × String)} {start goal : String}
    {blocked : List (String × String)} {wgt : String → String → ℚ}
    {fuel : ℕ} {p : List String}
    (h : dijkstra stations es start goal blocked wgt fuel = .ok (some p)) :
    ∃ adj, buildAdj stations es blocked wgt = .ok adj ∧
      ESync.chainOk adj p := by
  simp only [dijkstra] at h
  cases hb : buildAdj stations es blocked wgt with
  | error msg => simp [hb] at h
  | ok adj =>
    simp only [hb] at h
    split at h
    · simp only [Except.ok.injEq] at h
      refine ⟨adj, rfl, eloop_chainOk fuel _ _ p ?_ h⟩
      intro e he
      simp only [List.mem_singleton] at he
      subst he
      exact ⟨rfl, trivial⟩
    · simp at h

end EServer

/-- C1: for every graph, every blocked-edge set, and every start and goal
station, if the Router (`dijkstra`) returns a path, then no consecutive
station pair `(u, v)` of that path lies in the blocked set in either
orientation — proved for all three router variants (`extreme_ai_sync`,
`distance_ai_server`, `extreme_ai_server`), which share the skip-blocked
adjacency construction. -/
theorem dijkstra_no_blocked_edge (stationKeys : List String)
    (stations : List (String × ℚ × ℚ)) (edges : List (String × String))
    (start goal : String) (blocked : List (String × String))
    (elen w wgt : String → String → ℚ) (fuel : ℕ) (p pd pe : List String) :
    (ESync.dijkstra stationKeys edges start goal blocked elen fuel = some p →
      ∀ pr ∈ p.zip p.tail, pr ∉ blocked ∧ (pr.2, pr.1) ∉ blocked) ∧
    (DistAI.dijkstra stationKeys edges start goal blocked w fuel =
        .ok (some pd) →
      ∀ pr ∈ pd.zip pd.tail, pr ∉ blocked ∧ (pr.2, pr.1) ∉ blocked) ∧
    (EServer.dijkstra stations edges start goal blocked wgt fuel =
        .ok (some pe) →
      ∀ pr ∈ pe.zip pe.tail, pr ∉ blocked ∧ (pr.2, pr.1) ∉ blocked) := by
  refine ⟨?_, ?_, ?_⟩
  · intro h
    have hchain : ESync.chainOk
        (ESync.addEdges elen blocked (ESync.initAdj stationKeys edges) edges)
        p := by
      simp only [ESync.dijkstra] at h
      split at h
      · refine ESync.loop_chainOk fuel _ [] p ?_ h
        intro x hx
        simp only [List.mem_singleton] at hx
        subst hx
        exact ⟨rfl, trivial⟩
      · simp at h
    intro pr hpr
    obtain ⟨w', hw⟩ := ESync.chainOk_zip hchain pr hpr
    rcases ESync.mem_adjGet_addEdges edges _ pr.1 (pr.2, w') hw with
      hbase | ⟨uv, _, hnb, hor⟩
    · rw [ESync.adjGet_initAdj] at hbase
      simp at hbase
    · obtain ⟨hnb1, hnb2⟩ := not_or.mp hnb
      obtain ⟨u', v'⟩ := pr
      rcases hor with ⟨h1, h2⟩ | ⟨h1, h2⟩
      · simp only at h1 h2
        subst h1; subst h2
        exact ⟨hnb1, hnb2⟩
      · simp only at h1 h2
        subst h1; subst h2
        exact ⟨hnb2, hnb1⟩
  · intro h
    obtain ⟨adj, hb, hchain⟩ := DistAI.ddijkstra_chainOk h
    intro pr hpr
    have hstep := DistAI.nchainOk_zip hchain pr hpr
    rcases DistAI.nstep_buildAdjGo edges _ adj hb pr.1 pr.2 hstep with
      hbase | ⟨uv, _, hnb, hor⟩
    · obtain ⟨l, hfind, hmem⟩ := hbase
      rw [DistAI.nadjFind_init hfind] at hmem
      simp at hmem
    · obtain ⟨hnb1, hnb2⟩ := not_or.mp hnb
      obtain ⟨u', v'⟩ := pr
      rcases hor with ⟨h1, h2⟩ | ⟨h1, h2⟩
      · simp only at h1 h2
        subst h1; subst h2
        exact ⟨hnb1, hnb2⟩
      · simp only at h1 h2
        subst h1; subst h2
        exact ⟨hnb2, hnb1⟩
  · intro h
    obtain ⟨adj, hb, hchain⟩ := EServer.edijkstra_chainOk h
    intro pr hpr
    obtain ⟨w', hw⟩ := ESync.chainOk_zip hchain pr hpr
    rcases EServer.mem_adjGet_buildAdjGo edges _ adj hb pr.1 (pr.2, w') hw with
      hbase | ⟨uv, _, hnb, hor⟩
    · have hnil : ESync.adjGet
          (stations.map (fun s => (s.1, ([] : List (String × ℚ))))) pr.1 = [] := by
        refine ESync.adjGet_nil_of_values ?_ pr.1
        intro kv hkv
        obtain ⟨st, _, hkv2⟩ := List.mem_map.mp hkv
        rw [← hkv2]
      rw [hnil] at hbase
      simp at hbase
    · obtain ⟨hnb1, hnb2⟩ := not_or.mp hnb
      obtain ⟨u', v'⟩ := pr
      rcases hor with ⟨h1, h2⟩ | ⟨h1, h2⟩
      · simp only at h1 h2
        subst h1; subst h2
        exact ⟨hnb1, hnb2⟩
      · simp only at h1 h2
        subst h1; subst h2
        exact ⟨hnb2, hnb1⟩

/-- Witness for C1: three concrete runs on the triangle `A–B–C`.  The sync
router with `(A, B)` blocked returns `[A, C, B]` whose step `(A, C)` avoids
the blocked set; the distance router with the reversed orientation `(B, A)`
blocked also returns `[A, C, B]` whose step `(C, B)` avoids it; the
extreme-server router with `(C, A)` blocked returns `[A, B]` whose step
`(A, B)` avoids it. -/
theorem dijkstra_no_blocked_edge_witness :
    (("A", "C") ∉ blockedC1 ∧ ("C", "A") ∉ blockedC1) ∧
    (("C", "B") ∉ blockedC2 ∧ ("B", "C") ∉ blockedC2) ∧
    (("A", "B") ∉ blockedC3 ∧ ("B", "A") ∉ blockedC3) := by
  refine ⟨?_, ?_, ?_⟩
  · exact (dijkstra_no_blocked_edge skC1 stationsC1 esC1 "A" "B" blockedC1
      elen1 elen1 elen1 20 ["A", "C", "B"] ["A", "C", "B"] ["A", "C", "B"]).1
      (by with_unfolding_all decide) ("A", "C") (by decide)
  · exact (dijkstra_no_blocked_edge skC1 stationsC1 esC1 "A" "B" blockedC2
      elen1 elen1 elen1 20 ["A", "C", "B"] ["A", "C", "B"] ["A", "C", "B"]).2.1
      (by with_unfolding_all decide) ("C", "B") (by decide)
  · exact (dijkstra_no_blocked_edge skC1 stationsC1 esC1 "A" "B" blockedC3
      elen1 elen1 elen1 20 ["A", "B"] ["A", "B"] ["A", "B"]).2.2
      (by with_unfolding_all decide) ("A", "B") (by decide)

namespace ESync

/-- Keys present after an append were present before or equal the appended
key. -/
theorem adjHasKey_adjAppend {a : Adj} {k : String} {x : String × ℚ}
    {s : String} (h : adjHasKey (adjAppend a k x) s = true) :
    adjHasKey a s = true ∨ s = k := by
  induction a with
  | nil =>
    simp only [adjAppend, adjHasKey, Bool.or_false] at h
    exact Or.inr (by simpa [eq_comm] using of_decide_eq_true h)
  | cons kv rest ih =>
    obtain ⟨k', l⟩ := kv
    by_cases h1 : k' = k
    · subst h1
      simp only [adjAppend, if_pos rfl, adjHasKey] at h ⊢
      exact Or.inl h
    · simp only [adjAppend, if_neg h1, adjHasKey, Bool.or_eq_true] at h ⊢
      rcases h with h2 | h2
      · exact Or.inl (Or.inl h2)
      · rcases ih h2 with h3 | h3
        · exact Or.inl (Or.inr h3)
        · exact Or.inr h3

/-- Keys present after appending a fresh empty-list key were present before
or equal that key. -/
theorem adjHasKey_append_single {a : Adj} {k s : String}
    (h : adjHasKey (a ++ [(k, [])]) s = true) :
    adjHasKey a s = true ∨ s = k := by
  induction a with
  | nil =>
    simp only [List.nil_append, adjHasKey, Bool.or_false] at h
    exact Or.inr (by simpa [eq_comm] using of_decide_eq_true h)
  | cons kv rest ih =>
    obtain ⟨k', l⟩ := kv
    simp only [List.cons_append, adjHasKey, Bool.or_eq_true] at h ⊢
    rcases h with h2 | h2
    · exact Or.inl (Or.inl h2)
    · rcases ih h2 with h3 | h3
      · exact Or.inl (Or.inr h3)
      · exact Or.inr h3

/-- Keys present after an ensure step were present before or equal the
ensured key. -/
theorem adjHasKey_adjEnsure {a : Adj} {k s : String}
    (h : adjHasKey (adjEnsure a k) s = true) :
    adjHasKey a s = true ∨ s = k := by
  unfold adjEnsure at h
  split at h
  · exact Or.inl h
  · exact adjHasKey_append_single h

/-- Keys of `initAdj` are station keys or edge endpoints. -/
theorem adjHasKey_initAdj {sk : List String} {es : List (String × String)}
    {s : String} (h : adjHasKey (initAdj sk es) s = true) :
    s ∈ sk ∨ ∃ uv ∈ es, s = uv.1 ∨ s = uv.2 := by
  have h0 : ∀ (l : List String) (a : Adj),
      adjHasKey (l.foldl (fun a s => adjEnsure a s) a) s = true →
      adjHasKey a s = true ∨ s ∈ l := by
    intro l
    induction l with
    | nil => intro a ha; exact Or.inl ha
    | cons x xs ih =>
      intro a ha
      rcases ih (adjEnsure a x) ha with h1 | h1
      · rcases adjHasKey_adjEnsure h1 with h2 | h2
        · exact Or.inl h2
        · exact Or.inr (by simp [h2])
      · exact Or.inr (List.mem_cons_of_mem _ h1)
  have h1 : ∀ (l : List (String × String)) (a : Adj),
      adjHasKey (l.foldl (fun a uv => adjEnsure (adjEnsure a uv.1) uv.2) a) s = true →
      adjHasKey a s = true ∨ ∃ uv ∈ l, s = uv.1 ∨ s = uv.2 := by
    intro l
    induction l with
    | nil => intro a ha; exact Or.inl ha
    | cons x xs ih =>
      intro a ha
      rcases ih _ ha with h2 | h2
      · rcases adjHasKey_adjEnsure h2 with h3 | h3
        · rcases adjHasKey_adjEnsure h3 with h4 | h4
          · exact Or.inl h4
          · exact Or.inr ⟨x, List.mem_cons_self _ _, Or.inl h4⟩
        · exact Or.inr ⟨x, List.mem_cons_self _ _, Or.inr h3⟩
      · obtain ⟨uv, huv, hor⟩ := h2
        exact Or.inr ⟨uv, List.mem_cons_of_mem _ huv, hor⟩
  unfold initAdj at h
  rcases h1 es _ h with h2 | h2
  · rcases h0 sk [] h2 with h3 | h3
    · simp [adjHasKey] at h3
    · exact Or.inl h3
  · exact Or.inr h2

/-- Keys present after the edge-insertion loop were present before or are
endpoints of an inserted edge. -/
theorem adjHasKey_addEdges {elen : String → String → ℚ}
    {blocked : List (String × String)} :
    ∀ (es : List (String × String)) (a : Adj) (s : String),
      adjHasKey (addEdges elen blocked a es) s = true →
      adjHasKey a s = true ∨ ∃ uv ∈ es, s = uv.1 ∨ s = uv.2 := by
  intro es
  induction es with
  | nil => intro a s h; exact Or.inl h
  | cons uv rest ih =>
    intro a s h
    rw [show addEdges elen blocked a (uv :: rest) =
        addEdges elen blocked
          (if (uv.1, uv.2) ∈ blocked ∨ (uv.2, uv.1) ∈ blocked then a
           else adjAppend (adjAppend a uv.1 (uv.2, elen uv.1 uv.2)) uv.2
             (uv.1, elen uv.1 uv.2)) rest from rfl] at h
    rcases ih _ s h with h1 | ⟨e, he, hor⟩
    · split at h1
      · exact Or.inl h1
      · rcases adjHasKey_adjAppend h1 with h2 | h2
        · rcases adjHasKey_adjAppend h2 with h3 | h3
          · exact Or.inl h3
          · exact Or.inr ⟨uv, List.mem_cons_self _ _, Or.inl h3⟩
        · exact Or.inr ⟨uv, List.mem_cons_self _ _, Or.inr h2⟩
    · exact Or.inr ⟨e, List.mem_cons_of_mem _ he, hor⟩

/-- Every endpoint of an edge of the list belongs to `nodesOf`. -/
theorem mem_nodesOf {sk : List String} :
    ∀ {es : List (String × String)} {uv : String × String} {s : String},
      uv ∈ es → (s = uv.1 ∨ s = uv.2) → s ∈ nodesOf sk es := by
  intro es
  induction es with
  | nil => intro uv s h; simp at h
  | cons x xs ih =>
    intro uv s huv hor
    unfold nodesOf at ih ⊢
    rcases List.mem_cons.mp huv with h1 | h1
    · subst h1
      refine List.mem_append.mpr (Or.inr ?_)
      simp only [List.foldr_cons, List.mem_cons]
      rcases hor with h2 | h2
      · exact Or.inl h2
      · exact Or.inr (Or.inl h2)
    · have := ih h1 hor
      rcases List.mem_append.mp this with h2 | h2
      · exact List.mem_append.mpr (Or.inl h2)
      · refine List.mem_append.mpr (Or.inr ?_)
        simp only [List.foldr_cons, List.mem_cons]
        exact Or.inr (Or.inr h2)

end ESync

/-- C8 (amended): in the `extreme_ai_sync` Router, if the start or goal
station is absent from the router's node set (station keys together with
all edge endpoints), `dijkstra` returns `None` without raising.  The
`distance_ai_server` router does not satisfy the claim as stated — see the
counterexample. -/
theorem sync_dijkstra_absent_none (sk : List String)
    (es : List (String × String)) (start goal : String)
    (blocked : List (String × String)) (elen : String → String → ℚ)
    (fuel : ℕ)
    (h : start ∉ ESync.nodesOf sk es ∨ goal ∉ ESync.nodesOf sk es) :
    ESync.dijkstra sk es start goal blocked elen fuel = none := by
  have hkey : ∀ s, ESync.adjHasKey
      (ESync.addEdges elen blocked (ESync.initAdj sk es) es) s = true →
      s ∈ ESync.nodesOf sk es := by
    intro s hs
    rcases ESync.adjHasKey_addEdges es _ s hs with h1 | ⟨uv, huv, hor⟩
    · rcases ESync.adjHasKey_initAdj h1 with h2 | ⟨uv, huv, hor⟩
      · exact List.mem_append.mpr (Or.inl h2)
      · exact ESync.mem_nodesOf huv hor
    · exact ESync.mem_nodesOf huv hor
  simp only [ESync.dijkstra]
  rcases h with h | h
  · have hf : ESync.adjHasKey
        (ESync.addEdges elen blocked (ESync.initAdj sk es) es) start = false := by
      cases hc : ESync.adjHasKey
          (ESync.addEdges elen blocked (ESync.initAdj sk es) es) start
      · rfl
      · exact absurd (hkey _ hc) h
    rw [hf]
    simp
  · have hf : ESync.adjHasKey
        (ESync.addEdges elen blocked (ESync.initAdj sk es) es) goal = false := by
      cases hc : ESync.adjHasKey
          (ESync.addEdges elen blocked (ESync.initAdj sk es) es) goal
      · rfl
      · exact absurd (hkey _ hc) h
    rw [hf]
    simp

/-- Witness for C8: station `Z` is not in the graph `{A} ∪ {A–B}`, and the
sync router answers `None`. -/
theorem sync_dijkstra_absent_none_witness :
    ESync.dijkstra ["A"] [("A", "B")] "Z" "A" [] elen1 5 = none :=
  sync_dijkstra_absent_none ["A"] [("A", "B")] "Z" "A" [] elen1 5
    (Or.inl (by decide))

/-- Counterexample for C8: the `distance_ai_server` router violates the
claim.  With the start station absent from the (empty) station set and
equal to the goal it returns the bogus single-node path `[X]` rather than
"no path"; with an absent start different from the goal it raises
`KeyError` instead of returning `None`. -/
theorem distance_absent_start_counterexample :
    DistAI.dijkstra [] [] "X" "X" [] elen1 20 = .ok (some ["X"]) ∧
    DistAI.dijkstra ["Y"] [] "X" "Y" [] elen1 20 = .error "KeyError" ∧
    "X" ∉ ([] : List String) ∧ "X" ∉ (["Y"] : List String) :=
  ⟨by with_unfolding_all decide, by with_unfolding_all decide,
    by decide, by decide⟩

/-- Counterexample for C9: in the `extreme_ai_sync` router an edge whose
endpoints are both absent from the station set is **not** skipped — its
endpoints become graph nodes and the edge is traversable, here as the
returned path itself. -/
theorem sync_missing_endpoint_traversable :
    ESync.dijkstra [] [("X", "Y")] "X" "Y" [] elen1 20 = some ["X", "Y"] ∧
    "X" ∉ ([] : List String) ∧ "Y" ∉ ([] : List String) :=
  ⟨by with_unfolding_all decide, by decide, by decide⟩

/-- C9 (amended): no router variant skips an edge with a missing endpoint.
`distance_ai_server` and `extreme_ai_server` raise `KeyError` during
adjacency construction, while `extreme_ai_sync` adds the missing endpoint
as a traversable node (its coordinates fall back to `(0, 0)` inside
`edge_length_m`). -/
theorem missing_endpoint_behaviour :
    DistAI.dijkstra ["A"] [("A", "X")] "A" "X" [] elen1 20 = .error "KeyError" ∧
    EServer.dijkstra [("A", (0, 0))] [("A", "X")] "A" "X" [] elen1 20 =
      .error "KeyError" ∧
    ESync.dijkstra ["A"] [("A", "X")] "A" "X" [] elen1 20 = some ["A", "X"] ∧
    "X" ∉ (["A"] : List String) :=
  ⟨by with_unfolding_all decide, by with_unfolding_all decide,
    by with_unfolding_all decide, by decide⟩

/-- C5 (code bug): when the remaining distance runs out strictly inside an
edge, the Position Predictor returns the coordinate of the edge's **start**
station instead of the proportional interpolation: line 190 computes
`ua[0] + (va[0] - va[0]) * ratio` (and line 191 its longitude analogue), so
the `ratio` term vanishes.  Here the train consumes half of the 1000 m edge
`(A, B)` with `A = (0, 0)` and `B = (0.009, 0)`: the code yields `(0, 0)`
(station `A`), while the proportional interpolation of the spec is
`(0.0045, 0) = (9/2000, 0)`. -/
theorem predict_midedge_returns_endpoint :
    ESync.predict_future_pos elen5 stations5 train5 1000 = (0, 0) ∧
    ESync.safe_station_coord stations5 "A" (train5.lat, train5.lon) = (0, 0) ∧
    ESync.safe_station_coord stations5 "B" (train5.lat, train5.lon) = (9/1000, 0) ∧
    (0 : ℚ) + (9/1000 - 0) * (1/2) = 9/2000 ∧
    ((0 : ℚ), (0 : ℚ)) ≠ ((9/2000 : ℚ), (0 : ℚ)) :=
  ⟨by with_unfolding_all decide, by with_unfolding_all decide,
    by with_unfolding_all decide, by with_unfolding_all decide,
    by with_unfolding_all decide⟩

namespace ESync

/-- When every station consulted by the walk is missing, every coordinate
resolves to the fallback, so the walk returns the fallback (the mid-edge
branch returns `ua` exactly because the `(va - va) * r` term is zero). -/
theorem walk_all_missing {elen : String → String → ℚ}
    {stations : List (String × ℚ × ℚ)} {fb : ℚ × ℚ} {lastName : String}
    (hlast : Rail.lookupStation stations lastName = none) :
    ∀ (prs : List (String × String)) (remaining frac : ℚ),
      (∀ uv ∈ prs, Rail.lookupStation stations uv.1 = none) →
      walk elen stations fb lastName prs remaining frac = fb := by
  intro prs
  induction prs with
  | nil =>
    intro remaining frac _
    simp [walk, safe_station_coord, hlast]
  | cons uv rest ih =>
    intro remaining frac hm
    obtain ⟨u, v⟩ := uv
    have hu : Rail.lookupStation stations u = none :=
      hm (u, v) (List.mem_cons_self _ _)
    simp only [walk]
    split
    · split
      · simp [safe_station_coord, hu]
      · exact ih _ _ (fun uv h => hm uv (List.mem_cons_of_mem _ h))
    · simp [safe_station_coord, hlast]

end ESync

/-- C7 (amended): the Position Predictor is total; when the agent's path has
fewer than two stations it returns the last reported `(lat, lon)` unchanged,
and each missing station's coordinate individually falls back to the last
reported coordinate — in particular, when **every** station of the path is
missing the overall result is the last reported coordinate.  (When only some
stations are missing the result can instead be a known station's coordinate
— see the counterexample.) -/
theorem predict_fallback_cases (elen : String → String → ℚ)
    (stations : List (String × ℚ × ℚ)) (train : Rail.Train) (s : ℚ) :
    (train.path.length < 2 →
      ESync.predict_future_pos elen stations train s = (train.lat, train.lon)) ∧
    (∀ (n : String) (fb : ℚ × ℚ), Rail.lookupStation stations n = none →
      ESync.safe_station_coord stations n fb = fb) ∧
    ((∀ n ∈ train.path, Rail.lookupStation stations n = none) →
      ESync.predict_future_pos elen stations train s = (train.lat, train.lon)) := by
  refine ⟨?_, ?_, ?_⟩
  · intro h
    simp [ESync.predict_future_pos, h]
  · intro n fb h
    simp [ESync.safe_station_coord, h]
  · intro hm
    by_cases hlen : train.path.length < 2
    · simp [ESync.predict_future_pos, hlen]
    · have hne : train.path ≠ [] := by
        intro h0
        rw [h0] at hlen
        simp at hlen
      have hsome : train.path.getLast?.isSome := List.getLast?_isSome.mpr hne
      obtain ⟨l, hl⟩ := Option.isSome_iff_exists.mp hsome
      have hlmem : l ∈ train.path := by
        obtain ⟨l', hl'⟩ := List.getLast?_eq_some_iff.mp hl
        rw [hl']
        exact List.mem_append.mpr (Or.inr (List.mem_singleton.mpr rfl))
      simp only [ESync.predict_future_pos, if_neg hlen]
      rw [hl]
      refine ESync.walk_all_missing ?_ _ _ _ ?_
      · simpa using hm l hlmem
      · intro uv huv
        have h1 : uv ∈ train.path.zip train.path.tail := List.mem_of_mem_drop huv
        obtain ⟨u, v⟩ := uv
        exact hm u (List.of_mem_zip h1).1

/-- Witness for C7: a single-station path returns the last reported
coordinate `(3, 4)`; the missing station `X` resolves to the supplied
fallback; and a walk whose stations are all unknown returns the last
reported coordinate `(5, 5)`. -/
theorem predict_fallback_cases_witness :
    ESync.predict_future_pos elen1 stations7 trainP1 3 =
      (trainP1.lat, trainP1.lon) ∧
    ESync.safe_station_coord stations7 "X" (5, 5) = (5, 5) ∧
    ESync.predict_future_pos elen1 [] train7 200 = (train7.lat, train7.lon) :=
  ⟨(predict_fallback_cases elen1 stations7 trainP1 3).1 (by decide),
    (predict_fallback_cases elen1 stations7 trainP1 3).2.1 "X" (5, 5) (by decide),
    (predict_fallback_cases elen1 [] train7 200).2.2 (by decide)⟩

/-- Counterexample for C7: station `X` of `train7`'s path `[X, Y]` is
missing from the station map, yet the predicted position is known station
`Y`'s coordinate `(1, 1)`, not the agent's last reported coordinate
`(5, 5)` — the fallback is per-station, not for the whole result. -/
theorem predict_missing_station_counterexample :
    Rail.lookupStation stations7 "X" = none ∧
    "X" ∈ train7.path ∧
    ESync.predict_future_pos elen7 stations7 train7 200 = (1, 1) ∧
    train7.lat = 5 ∧ train7.lon = 5 ∧
    ((1 : ℚ), (1 : ℚ)) ≠ ((5 : ℚ), (5 : ℚ)) :=
  ⟨by decide, by decide, by with_unfolding_all decide, by decide, by decide,
    by with_unfolding_all decide⟩

/-- Counterexample for C4: the kinematic combination is the weighted sum
`0.33·p + 0.33·t + 0.34·b` (line 297), not the unweighted mean
`(p + t + b) / 3`: at `(p, t, b) = (0, 0, 1)` the code yields `0.34` while
the claimed mean is `1/3`. -/
theorem kinematic_weights_counterexample :
    ESync.base_score 0 0 1 = 34/100 ∧
    ¬ (((0 : ℚ) + 0 + 1) / 3 = 34/100) :=
  ⟨by with_unfolding_all decide, by with_unfolding_all decide⟩

/-- C4 (amended): the kinematic score is the weighted sum
`(33·p + 33·t + 34·b)/100` (slightly over-weighting braking, not the
unweighted mean); the external feed contribution is normalised by the total
declared weight; and the composite equals
`clamp(0.6·kinematic + 0.4·feedRisk, 0, 1)`, which always lies in
`[0, 1]`. -/
theorem risk_score_formulas (p t b f : ℚ) (contribs weights : List ℚ)
    (hw : weights ≠ []) (hpos : 0 < weights.sum) :
    ESync.base_score p t b = (33 * p + 33 * t + 34 * b) / 100 ∧
    ESync.paramRisk contribs weights = contribs.sum / weights.sum ∧
    ESync.final_score (ESync.base_score p t b) f =
      max 0 (min 1 (6/10 * ESync.base_score p t b + 4/10 * f)) ∧
    0 ≤ ESync.final_score (ESync.base_score p t b) f ∧
    ESync.final_score (ESync.base_score p t b) f ≤ 1 := by
  refine ⟨by unfold ESync.base_score; ring, ?_, rfl, le_max_left _ _, ?_⟩
  · have hie : weights.isEmpty = false := by
      simpa [List.isEmpty_iff] using hw
    simp [ESync.paramRisk, hie, hpos]
  · unfold ESync.final_score
    exact max_le (by norm_num) (min_le_left _ _)

/-- Witness for C4: concrete instantiation at `p = t = b = 1/2`, feed risk
2, contributions `[1, 2]`, weights `[1, 1]`. -/
theorem risk_score_formulas_witness :
    ESync.base_score (1/2) (1/2) (1/2) =
      (33 * (1/2 : ℚ) + 33 * (1/2) + 34 * (1/2)) / 100 ∧
    ESync.paramRisk [1, 2] [1, 1] = ([1, 2] : List ℚ).sum / ([1, 1] : List ℚ).sum ∧
    ESync.final_score (ESync.base_score (1/2) (1/2) (1/2)) 2 =
      max 0 (min 1 (6/10 * ESync.base_score (1/2) (1/2) (1/2) + 4/10 * 2)) ∧
    0 ≤ ESync.final_score (ESync.base_score (1/2) (1/2) (1/2)) 2 ∧
    ESync.final_score (ESync.base_score (1/2) (1/2) (1/2)) 2 ≤ 1 :=
  risk_score_formulas (1/2) (1/2) (1/2) 2 [1, 2] [1, 1] (by decide)
    (by with_unfolding_all decide)

namespace ESync

/-- The running maximum of the pairwise fold never decreases. -/
theorem bestFold_ge_init (score : Rail.Train → Rail.Train → ℚ) :
    ∀ (l : List (Rail.Train × Rail.Train))
      (acc : ℚ × Option (Rail.Train × Rail.Train)),
      acc.1 ≤ (l.foldl
        (fun h p => if score p.1 p.2 > h.1 then (score p.1 p.2, some p) else h)
        acc).1 := by
  intro l
  induction l with
  | nil => intro acc; exact le_refl _
  | cons q rest ih =>
    intro acc
    rw [List.foldl_cons]
    refine le_trans ?_ (ih _)
    split
    · exact le_of_lt (by assumption)
    · exact le_refl _

/-- Every evaluated pair's score is bounded by the fold's final maximum. -/
theorem bestFold_le (score : Rail.Train → Rail.Train → ℚ) :
    ∀ (l : List (Rail.Train × Rail.Train))
      (acc : ℚ × Option (Rail.Train × Rail.Train))
      (p : Rail.Train × Rail.Train), p ∈ l →
      score p.1 p.2 ≤ (l.foldl
        (fun h p => if score p.1 p.2 > h.1 then (score p.1 p.2, some p) else h)
        acc).1 := by
  intro l
  induction l with
  | nil => intro acc p hp; simp at hp
  | cons q rest ih =>
    intro acc p hp
    rw [List.foldl_cons]
    rcases List.mem_cons.mp hp with h1 | h1
    · subst h1
      refine le_trans ?_ (bestFold_ge_init score rest _)
      split
      · exact le_refl _
      · exact not_lt.mp (by assumption)
    · exact ih _ p h1

/-- The fold's recorded pair always carries exactly the recorded score. -/
theorem bestFold_some (score : Rail.Train → Rail.Train → ℚ) :
    ∀ (l : List (Rail.Train × Rail.Train))
      (acc : ℚ × Option (Rail.Train × Rail.Train)),
      (∀ q, acc.2 = some q → score q.1 q.2 = acc.1) →
      ∀ p, (l.foldl
        (fun h p => if score p.1 p.2 > h.1 then (score p.1 p.2, some p) else h)
        acc).2 = some p →
        score p.1 p.2 = (l.foldl
          (fun h p => if score p.1 p.2 > h.1 then (score p.1 p.2, some p) else h)
          acc).1 := by
  intro l
  induction l with
  | nil => intro acc hacc p hp; exact hacc p hp
  | cons q rest ih =>
    intro acc hacc p hp
    rw [List.foldl_cons] at hp ⊢
    refine ih _ ?_ p hp
    intro q' hq'
    split at hq'
    · simp only [Option.some.injEq] at hq'
      subst hq'
      split
      · rfl
      · exact absurd (by assumption) (by simp_all)
    · split
      · exact absurd (by assumption) (by simp_all)
      · exact hacc q' hq'

/-- The fold's recorded pair is the earliest one: it strictly exceeds the
initial maximum and the score of every pair evaluated before it. -/
theorem bestFold_earliest (score : Rail.Train → Rail.Train → ℚ) :
    ∀ (l : List (Rail.Train × Rail.Train))
      (acc : ℚ × Option (Rail.Train × Rail.Train))
      (p : Rail.Train × Rail.Train),
      (l.foldl
        (fun h p => if score p.1 p.2 > h.1 then (score p.1 p.2, some p) else h)
        acc).2 = some p →
      acc.2 = some p ∨
      ∃ l1 l2, l = l1 ++ p :: l2 ∧ acc.1 < score p.1 p.2 ∧
        ∀ q ∈ l1, score q.1 q.2 < score p.1 p.2 := by
  intro l
  induction l with
  | nil => intro acc p hp; exact Or.inl hp
  | cons x rest ih =>
    intro acc p hp
    rw [List.foldl_cons] at hp
    rcases ih _ p hp with h1 | ⟨l1, l2, hsplit, hlt, hall⟩
    · by_cases hx : score x.1 x.2 > acc.1
      · rw [if_pos hx] at h1
        simp only [Option.some.injEq] at h1
        subst h1
        exact Or.inr ⟨[], rest, rfl, hx, by simp⟩
      · rw [if_neg hx] at h1
        exact Or.inl h1
    · by_cases hx : score x.1 x.2 > acc.1
      · rw [if_pos hx] at hlt
        refine Or.inr ⟨x :: l1, l2, by rw [hsplit, List.cons_append], lt_trans hx hlt, ?_⟩
        intro q hq
        rcases List.mem_cons.mp hq with h2 | h2
        · subst h2; exact hlt
        · exact hall q h2
      · rw [if_neg hx] at hlt
        refine Or.inr ⟨x :: l1, l2, by rw [hsplit, List.cons_append], hlt, ?_⟩
        intro q hq
        rcases List.mem_cons.mp hq with h2 | h2
        · subst h2; exact lt_of_le_of_lt (not_lt.mp hx) hlt
        · exact hall q h2

end ESync

/-- C2 (amended): the sync decide cycle evaluates every unordered pair and
tracks the **global maximum** blended score, replacing the running best only
on strictly greater scores — so on ties it keeps the earliest pair in roster
iteration order, with no lexicographic agent-id tie-break — and it returns
NORMAL whenever that maximum is below the threshold `0.55`.  The
`distance_ai_server` decide cycle instead acts on the first pair closer than
`SAFE_DISTANCE`, never comparing risks globally — see the counterexample. -/
theorem decide_tracks_global_max (score : Rail.Train → Rail.Train → ℚ)
    (elen : String → String → ℚ) (sk : List String)
    (es : List (String × String)) (trains : List Rail.Train) (fuel : ℕ) :
    (∀ p ∈ Rail.pairsOf trains,
      score p.1 p.2 ≤ (ESync.bestPair score trains).1) ∧
    (∀ p, (ESync.bestPair score trains).2 = some p →
      score p.1 p.2 = (ESync.bestPair score trains).1) ∧
    (∀ p, (ESync.bestPair score trains).2 = some p →
      ∃ l1 l2, Rail.pairsOf trains = l1 ++ p :: l2 ∧
        ∀ q ∈ l1, score q.1 q.2 < score p.1 p.2) ∧
    ((ESync.bestPair score trains).1 < 11/20 →
      (ESync.decide score elen sk es trains fuel).action = "NORMAL") := by
  refine ⟨fun p hp => ESync.bestFold_le score _ _ p hp,
    fun p hp => ESync.bestFold_some score _ _ (by intro q hq; simp at hq) p hp,
    fun p hp => ?_, ?_⟩
  · rcases ESync.bestFold_earliest score (Rail.pairsOf trains) (0, none) p hp with
      h1 | ⟨l1, l2, hsplit, _, hall⟩
    · simp at h1
    · exact ⟨l1, l2, hsplit, hall⟩
  intro hlt
  simp only [ESync.decide]
  cases hb : (ESync.bestPair score trains).2 with
  | none => rfl
  | some pr =>
    obtain ⟨A, B⟩ := pr
    show (if 11/20 ≤ (ESync.bestPair score trains).1 then
        ESync.conflictResp elen sk es fuel (ESync.bestPair score trains).1 A B
      else { action := "NORMAL", score := (ESync.bestPair score trains).1 }).action
      = "NORMAL"
    rw [if_neg (not_le.mpr hlt)]

/-- Witness for C2 (amended): constant pair score 1/2 with two trains; the
pair's score is the tracked maximum, and being below 0.55 the decision is
NORMAL. -/
theorem decide_tracks_global_max_witness :
    scoreHalf TA TB ≤ (ESync.bestPair scoreHalf [TA, TB]).1 ∧
    scoreHalf TA TB = (ESync.bestPair scoreHalf [TA, TB]).1 ∧
    (∃ l1 l2, Rail.pairsOf [TA, TB] = l1 ++ (TA, TB) :: l2 ∧
      ∀ q ∈ l1, scoreHalf q.1 q.2 < scoreHalf TA TB) ∧
    (ESync.decide scoreHalf elen1 sk6 es6 [TA, TB] 20).action = "NORMAL" := by
  have h := decide_tracks_global_max scoreHalf elen1 sk6 es6 [TA, TB] 20
  exact ⟨h.1 (TA, TB) (by with_unfolding_all decide),
    h.2.1 (TA, TB) (by with_unfolding_all decide),
    h.2.2.1 (TA, TB) (by with_unfolding_all decide),
    h.2.2.2 (by with_unfolding_all decide)⟩

/-- Counterexample for C2: the `distance_ai_server` decide cycle does not
base its decision on the globally riskiest pair.  Trains `B` and `C` sit at
identical coordinates (distance 0 — the maximal collision risk), yet the
scan acts on the first qualifying pair `(A, B)` (distance 111 m <
SAFE_DISTANCE) and reroutes train `A`, which is not even a member of the
closest pair. -/
theorem distance_first_pair_counterexample :
    (DistAI.decide hav2 elen1 dsk des [dA, dB, dC] [] 20).2 =
      .ok { action := "REQUEST_CONFIRMATION", train_id := some "A",
            suggested_path := some ["S1", "S3", "S2"] } ∧
    hav2 dB.lat dB.lon dC.lat dC.lon = 0 ∧
    hav2 dA.lat dA.lon dB.lat dB.lon = 111 ∧
    hav2 dA.lat dA.lon dC.lat dC.lon = 111 ∧
    (0 : ℚ) < 111 ∧ ("A" : String) ≠ "B" ∧ ("A" : String) ≠ "C" :=
  ⟨by with_unfolding_all decide, by with_unfolding_all decide,
    by with_unfolding_all decide, by with_unfolding_all decide,
    by with_unfolding_all decide, by decide, by decide⟩

/-- C3 (amended): when the sync arbiter acts on the maximal pair `(A, B)`,
the loser (the returned `train_id`) is the agent with the strictly lower
priority value when priorities differ; when they are equal the loser is
`A`, the first member of the pair in roster iteration order
(`low = A if pa <= pb else B`, line 340) — a roster-order-dependent choice,
not an identifier tie-break (see the counterexample). -/
theorem loser_priority_rule (score : Rail.Train → Rail.Train → ℚ)
    (elen : String → String → ℚ) (sk : List String)
    (es : List (String × String)) (trains : List Rail.Train) (fuel : ℕ)
    (A B : Rail.Train)
    (hb : (ESync.bestPair score trains).2 = some (A, B))
    (hs : 11/20 ≤ (ESync.bestPair score trains).1) :
    (A.priority < B.priority →
      (ESync.decide score elen sk es trains fuel).train_id = some A.id) ∧
    (B.priority < A.priority →
      (ESync.decide score elen sk es trains fuel).train_id = some B.id) ∧
    (A.priority = B.priority →
      (ESync.decide score elen sk es trains fuel).train_id = some A.id) := by
  have hmain : (ESync.decide score elen sk es trains fuel).train_id =
      some (if A.priority ≤ B.priority then A else B).id := by
    simp only [ESync.decide]
    rw [hb]
    simp only [if_pos hs]
    simp only [ESync.conflictResp]
  refine ⟨fun h => ?_, fun h => ?_, fun h => ?_⟩
  · rw [hmain, if_pos (le_of_lt h)]
  · rw [hmain, if_neg (not_le.mpr h)]
  · rw [hmain, if_pos (le_of_eq h)]

/-- Witness for C3 (amended): strictly lower priority loses in both supply
orders, and an equal-priority pair loses its first member. -/
theorem loser_priority_rule_witness :
    (ESync.decide scoreOne elen1 sk6 es6 [T61, T62] 20).train_id = some T61.id ∧
    (ESync.decide scoreOne elen1 sk6 es6 [T62, T61] 20).train_id = some T61.id ∧
    (ESync.decide scoreOne elen1 sk6 es6 [TA, TB] 20).train_id = some TA.id := by
  have h1 := loser_priority_rule scoreOne elen1 sk6 es6 [T61, T62] 20 T61 T62
    (by with_unfolding_all decide) (by with_unfolding_all decide)
  have h2 := loser_priority_rule scoreOne elen1 sk6 es6 [T62, T61] 20 T62 T61
    (by with_unfolding_all decide) (by with_unfolding_all decide)
  have h3 := loser_priority_rule scoreOne elen1 sk6 es6 [TA, TB] 20 TA TB
    (by with_unfolding_all decide) (by with_unfolding_all decide)
  exact ⟨h1.1 (by decide), h2.2.1 (by decide), h3.2.2 rfl⟩

/-- Counterexample for C3: with equal priorities the chosen loser depends on
the order in which the pair was supplied: the identical roster in the two
orders `[TA, TB]` and `[TB, TA]` yields losers `A` and `B` respectively, so
the choice is not a function of the two agent identifiers alone. -/
theorem loser_order_dependent_counterexample :
    TA.priority = TB.priority ∧ TA.id = "A" ∧ TB.id = "B" ∧
    (ESync.decide scoreOne elen1 sk6 es6 [TA, TB] 20).train_id = some "A" ∧
    (ESync.decide scoreOne elen1 sk6 es6 [TB, TA] 20).train_id = some "B" ∧
    ("A" : String) ≠ "B" :=
  ⟨by decide, by decide, by decide, by with_unfolding_all decide,
    by with_unfolding_all decide, by decide⟩

namespace DistAI

/-- Insertion never removes existing members. -/
theorem insertEdge_mono {bs : BS} {e x : String × String} (h : e ∈ bs) :
    e ∈ insertEdge bs x := by
  unfold insertEdge
  split
  · exact h
  · exact List.mem_append.mpr (Or.inl h)

/-- The inserted edge is a member of the result. -/
theorem mem_insertEdge_self (bs : BS) (e : String × String) :
    e ∈ insertEdge bs e := by
  unfold insertEdge
  split
  · assumption
  · exact List.mem_append.mpr (Or.inr (List.mem_singleton.mpr rfl))

/-- A conflict step only ever grows the blocked set. -/
theorem handleConflict_mono {w : String → String → ℚ} {sk : List String}
    {es : List (String × String)} {A B : Rail.Train} {bs : BS} {fuel : ℕ}
    {e : String × String} (h : e ∈ bs) :
    e ∈ (handleConflict w sk es A B bs fuel).1 := by
  unfold handleConflict
  cases h1 : Rail.pyGet (loserOf A B).path (edgeIdx (loserOf A B)) with
  | error msg => simp [h1, h]
  | ok u =>
    cases h2 : Rail.pyGet (loserOf A B).path (edgeIdx (loserOf A B) + 1) with
    | error msg => simp [h1, h2, h]
    | ok v =>
      simp only [h1, h2]
      cases h3 : dijkstra sk es u (loserOf A B).destination
          (insertEdge bs (u, v)) w fuel with
      | error msg => simpa [h3] using insertEdge_mono h
      | ok p? => cases p? <;> simp [h3, insertEdge_mono h]

/-- The scan only ever grows the blocked set. -/
theorem scan_mono {hav : ℚ → ℚ → ℚ → ℚ → ℚ} {w : String → String → ℚ}
    {sk : List String} {es : List (String × String)} {fuel : ℕ}
    {e : String × String} :
    ∀ (l : List (Rail.Train × Rail.Train)) (bs : BS), e ∈ bs →
      e ∈ (scan hav w sk es l bs fuel).1 := by
  intro l
  induction l with
  | nil => intro bs h; exact h
  | cons pr rest ih =>
    intro bs h
    obtain ⟨A, B⟩ := pr
    simp only [scan]
    split
    · exact handleConflict_mono h
    · exact ih bs h

end DistAI

/-- C6 (amended): in `distance_ai_server` the blocked-edge set is
process-wide state that only ever grows: a decide cycle preserves every
previously blocked edge (monotone growth), and when a conflict step locates
the loser's current edge `(u, v)` that edge is in the resulting set, which
is also the set the embedded reroute query runs against.  In
`extreme_ai_sync`, by contrast, the blocked set is rebuilt afresh inside
each decide call, so blocks do not persist across cycles — see the
counterexample. -/
theorem distance_blocked_monotone (hav : ℚ → ℚ → ℚ → ℚ → ℚ)
    (w : String → String → ℚ) (sk : List String)
    (es : List (String × String)) (trains : List Rail.Train)
    (bs : DistAI.BS) (fuel : ℕ) :
    (∀ e ∈ bs, e ∈ (DistAI.decide hav w sk es trains bs fuel).1) ∧
    (∀ (A B : Rail.Train) (bs0 : DistAI.BS) (u v : String),
      Rail.pyGet (DistAI.loserOf A B).path
        (DistAI.edgeIdx (DistAI.loserOf A B)) = .ok u →
      Rail.pyGet (DistAI.loserOf A B).path
        (DistAI.edgeIdx (DistAI.loserOf A B) + 1) = .ok v →
      (u, v) ∈ (DistAI.handleConflict w sk es A B bs0 fuel).1) := by
  constructor
  · intro e he
    exact DistAI.scan_mono _ bs he
  · intro A B bs0 u v h1 h2
    unfold DistAI.handleConflict
    simp only [h1, h2]
    cases h3 : DistAI.dijkstra sk es u (DistAI.loserOf A B).destination
        (DistAI.insertEdge bs0 (u, v)) w fuel with
    | error msg => simpa [h3] using DistAI.mem_insertEdge_self bs0 (u, v)
    | ok p? => cases p? <;> simp [h3, DistAI.mem_insertEdge_self bs0 (u, v)]

/-- Witness for C6 (amended): a previously blocked edge `(E, F)` survives a
full decide cycle, and the conflict step on the pair `(dA, dB)` records
train `A`'s current edge `(S1, S2)` in the returned set. -/
theorem distance_blocked_monotone_witness :
    ("E", "F") ∈ (DistAI.decide hav2 elen1 dsk des [dA, dB, dC]
      [("E", "F")] 20).1 ∧
    ("S1", "S2") ∈ (DistAI.handleConflict elen1 dsk des dA dB [] 20).1 := by
  have h := distance_blocked_monotone hav2 elen1 dsk des [dA, dB, dC]
    [("E", "F")] 20
  exact ⟨h.1 ("E", "F") (by decide),
    h.2 dA dB [] "S1" "S2" (by with_unfolding_all decide)
      (by with_unfolding_all decide)⟩

/-- Counterexample for C6: in `extreme_ai_sync` the blocked set does not
persist across decide cycles.  Cycle 1 blocks edge `(S1, S2)`; cycle 2 (a
conflict on edge `(S3, S2)`) returns the reroute `[S3, S1, S2]`, whose
consecutive step `(S1, S2)` traverses the edge blocked by cycle 1 — the
later Router query never observes the earlier block. -/
theorem sync_blocked_not_persistent_counterexample :
    (ESync.decide scoreOne elen1 sk6 es6 [T61, T62] 20).blocked_edge =
      some ("S1", "S2") ∧
    (ESync.decide scoreOne elen1 sk6 es6 [T63, T64] 20).suggested_path =
      some ["S3", "S1", "S2"] ∧
    ("S1", "S2") ∈ (["S3", "S1", "S2"].zip ["S1", "S2"]) :=
  ⟨by with_unfolding_all decide, by with_unfolding_all decide, by decide⟩

/-- Counterexample for C10: structurally invalid requests are **not**
surfaced as errors.  A decide cycle on an empty agent roster returns the
NORMAL decision ("All clear"), and `apply_reroute` acknowledges a path
through stations that exist in no graph with status "ok". -/
theorem silent_accept_counterexample :
    (ESync.decide scoreOne elen1 sk6 es6 [] 20).action = "NORMAL" ∧
    ESync.apply_reroute ⟨"ghost", ["Nowhere", "AlsoNowhere"]⟩ =
      ⟨"ok", "ghost", ["Nowhere", "AlsoNowhere"]⟩ ∧
    "Nowhere" ∉ sk6 ∧ "AlsoNowhere" ∉ sk6 :=
  ⟨rfl, rfl, by decide, by decide⟩

/-- C10 (amended): the engine silently accepts structurally invalid
requests: `apply_reroute` is a stateless acknowledgement that returns
status "ok" for any train id and path in both servers (no station
validation), and a decide cycle over an empty roster returns NORMAL in both
servers rather than an error. -/
theorem reroute_ack_and_empty_normal (m : ESync.ApplyModel)
    (score : Rail.Train → Rail.Train → ℚ) (elen : String → String → ℚ)
    (sk : List String) (es : List (String × String)) (fuel : ℕ)
    (hav : ℚ → ℚ → ℚ → ℚ → ℚ) (w : String → String → ℚ) (bs : DistAI.BS) :
    ESync.apply_reroute m = ⟨"ok", m.train_id, m.new_path⟩ ∧
    DistAI.apply_reroute m = ⟨"ok", m.train_id, m.new_path⟩ ∧
    (ESync.decide score elen sk es [] fuel).action = "NORMAL" ∧
    (DistAI.decide hav w sk es [] bs fuel).2 = .ok ⟨"NORMAL", none, none⟩ :=
  ⟨rfl, rfl, rfl, rfl⟩
